import Mathlib

/-!
Verification development for the docx-nodejs template engine.

The JavaScript source is embedded shallowly:

* strings are modelled as `Str := List Char`;
* JavaScript values (`null`, `undefined`, booleans, numbers, strings,
  arrays, plain objects) are the inductive type `Val`; JavaScript numbers
  are `JsNum` (a rational or `NaN`; infinities do not arise in any
  statement proved here);
* each JavaScript function of the repository is translated to a Lean
  function of the same name; regex-based `String.replace(.., global)`
  passes are translated to explicit left-to-right scanners with the same
  leftmost-match, continue-after-replacement semantics;
* the only host facility the source uses that cannot be given a meaning
  inside the embedding — `new Function(...)` inside
  `ExpressionEvaluator.safeEvaluate` — is modelled by an oracle
  `hostEval : Str → Option Val` (`none` models a thrown exception), and
  the instrumented evaluator additionally records every string handed to
  the host, so that "the evaluator invokes the host interpreter" is a
  statement of the model.
-/

set_option maxHeartbeats 1000000

namespace Docx

/-- Strings, modelled as lists of characters. -/
abbrev Str := List Char

/-- Convert a Lean string literal into the model's string type. -/
def lit (s : String) : Str := s.toList

/-- ASCII whitespace recognised by the embedding (covers the whitespace
characters that actually occur in the templates; JavaScript `\s` and
`trim` additionally accept exotic Unicode spaces, which never appear in
the statements below). -/
def isWs (c : Char) : Bool := c = ' ' || c = '\t' || c = '\n' || c = '\r'

/-- Models `String.prototype.trim`. -/
def trimStr (s : Str) : Str :=
  (s.dropWhile isWs).reverse.dropWhile isWs |>.reverse

/-- JavaScript word characters (`\w` = `[A-Za-z0-9_]`). -/
def isWordChar (c : Char) : Bool :=
  (('a' ≤ c && c ≤ 'z') || ('A' ≤ c && c ≤ 'Z') || ('0' ≤ c && c ≤ '9') || c = '_')

/-- ASCII decimal digit. -/
def isDigitChar (c : Char) : Bool := '0' ≤ c && c ≤ '9'

/-- ASCII letter or underscore. -/
def isAlphaUnd (c : Char) : Bool :=
  ('a' ≤ c && c ≤ 'z') || ('A' ≤ c && c ≤ 'Z') || c = '_'

/-- Models `s.indexOf(pat)` restricted to a suffix: the first index at which
`pat` occurs in `s` (as a contiguous sublist), if any. -/
def idxOf (s pat : Str) : Option Nat :=
  if pat.isPrefixOf s then some 0
  else
    match s with
    | [] => none
    | _ :: t => (idxOf t pat).map Nat.succ

/-- Models `s.indexOf(pat, from)`: first occurrence of `pat` at an index `≥ start`. -/
def idxOfFrom (s pat : Str) (start : Nat) : Option Nat :=
  (idxOf (s.drop start) pat).map (· + start)

/-- Models `s.includes(pat)`. -/
def containsSub (s pat : Str) : Bool := (idxOf s pat).isSome

/-- Split at the first occurrence of `pat`: returns the part before the
occurrence and the part after it. -/
def splitFirst (pat : Str) : Str → Option (Str × Str)
  | [] => if pat.isEmpty then some ([], []) else none
  | c :: cs =>
    if pat.isPrefixOf (c :: cs) then some ([], (c :: cs).drop pat.length)
    else (splitFirst pat cs).map (fun p => (c :: p.1, p.2))

/-- Split at the first occurrence of a single character. -/
def splitFirstChar (ch : Char) : Str → Option (Str × Str)
  | [] => none
  | c :: cs =>
    if c = ch then some ([], cs)
    else (splitFirstChar ch cs).map (fun p => (c :: p.1, p.2))

theorem splitFirstChar_snd_length {ch : Char} :
    ∀ {s : Str} {a b : Str}, splitFirstChar ch s = some (a, b) → b.length < s.length := by
  intro s
  induction s with
  | nil => intro a b h; simp [splitFirstChar] at h
  | cons c cs ih =>
    intro a b h
    simp only [splitFirstChar] at h
    split at h
    · cases h; simp
    · cases h' : splitFirstChar ch cs with
      | none => rw [h'] at h; simp at h
      | some p =>
        rw [h'] at h
        simp at h
        have := ih (show splitFirstChar ch cs = some (p.1, p.2) by rw [h'])
        have hb : b = p.2 := h.2.symm
        subst hb
        simp only [List.length_cons]
        exact Nat.lt_succ_of_lt this

/-- Models `String.prototype.split(sep)` for a one-character separator. -/
def splitOnChar (ch : Char) (s : Str) : List Str :=
  match h : splitFirstChar ch s with
  | none => [s]
  | some (a, b) => a :: splitOnChar ch b
termination_by s.length
decreasing_by
  exact splitFirstChar_snd_length h

/-- Join a list of strings with a separator (`Array.prototype.join`). -/
def joinSep (sep : Str) : List Str → Str
  | [] => []
  | [x] => x
  | x :: y :: t => x ++ sep ++ joinSep sep (y :: t)

/-! ## JavaScript values -/

/-- A JavaScript number: a rational or `NaN`.  (Infinities never arise in
any statement below: no evaluated expression divides by zero.) -/
inductive JsNum where
  | nan : JsNum
  | num (q : ℚ) : JsNum
deriving DecidableEq, Repr

/-- A JavaScript value as it occurs in template data: `null`,
`undefined`, booleans, numbers, strings, arrays and plain objects.
Host functions (`Math`, helper closures) are not representable and never
occur in data trees handled by the claims. -/
inductive Val where
  | vNull : Val
  | vUndefined : Val
  | vBool (b : Bool) : Val
  | vNum (n : JsNum) : Val
  | vStr (s : Str) : Val
  | vArr (xs : List Val) : Val
  | vObj (fields : List (String × Val)) : Val

/-- A data object: the top-level JavaScript object passed as `data`. -/
abbrev Obj := List (String × Val)

/-- Object field read (`o[k]`); `vUndefined` when the own property is absent.
Prototype-chain properties (e.g. `toString`) are not modelled. -/
def objGet (o : Obj) (k : String) : Val :=
  match o.lookup k with
  | some v => v
  | none => .vUndefined

/-- Object field write (`o[k] = v`), keeping keys unique. -/
def objSet (o : Obj) (k : String) (v : Val) : Obj :=
  match o with
  | [] => [(k, v)]
  | (k', v') :: t => if k' = k then (k, v) :: t else (k', v') :: objSet t k v

/-- JavaScript truthiness. -/
def jsTruthy : Val → Bool
  | .vNull => false
  | .vUndefined => false
  | .vBool b => b
  | .vNum .nan => false
  | .vNum (.num q) => q ≠ 0
  | .vStr s => s ≠ []
  | .vArr _ => true
  | .vObj _ => true

/-- Models `a || b`. -/
def jsOr (a b : Val) : Val := if jsTruthy a then a else b

/-- Parse an optionally signed decimal literal (digits, optional single
point, digits); `none` when the character list is not of that shape.
This is the number grammar accepted by the source's `parseValue` regex
`^-?\d+\.?\d*$` and, on the inputs occurring below, by `Number(...)`. -/
def parseDecimal (s : Str) : Option ℚ :=
  let (sign, rest) :=
    match s with
    | '-' :: t => ((-1 : ℚ), t)
    | t => ((1 : ℚ), t)
  let intPart := rest.takeWhile isDigitChar
  let rest2 := rest.dropWhile isDigitChar
  if intPart = [] then none
  else
    let iv : ℚ := intPart.foldl (fun acc c => acc * 10 + (c.toNat - '0'.toNat : ℕ)) 0
    match rest2 with
    | [] => some (sign * iv)
    | '.' :: frac =>
      if frac.all isDigitChar then
        let fv : ℚ := frac.foldl (fun acc c => acc * 10 + (c.toNat - '0'.toNat : ℕ)) 0
        some (sign * (iv + fv / (10 ^ frac.length : ℚ)))
      else none
    | _ => none

/-- Models `Number(value)` coercion.  Arrays and objects go through their string
form in JavaScript; the embedding returns `NaN` for them except for the
empty array (`Number([]) = 0`), which is the only case exercised. -/
def jsToNumber : Val → JsNum
  | .vNull => .num 0
  | .vUndefined => .nan
  | .vBool b => .num (if b then 1 else 0)
  | .vNum n => n
  | .vStr s =>
    let t := trimStr s
    if t = [] then .num 0
    else match parseDecimal t with
      | some q => .num q
      | none => .nan
  | .vArr [] => .num 0
  | .vArr (_ :: _) => .nan
  | .vObj _ => .nan

/-- Decimal digits of a natural number (most significant first). -/
def natDigits (n : Nat) : Str :=
  (Nat.toDigits 10 n)

/-- Render a rational as JavaScript renders the corresponding float,
for the rationals that admit a finite decimal expansion of at most 20
digits after the point (every number a claim's statement stringifies
does).  Other rationals — unreachable below — render as `"~"`. -/
def ratToStr (q : ℚ) : Str :=
  let sign : Str := if q < 0 then ['-'] else []
  let a := |q|
  match (List.range 21).find? (fun k => ((a * 10 ^ k).den = 1)) with
  | none => ['~']
  | some k =>
    let n := (a * 10 ^ k).num.toNat
    if k = 0 then sign ++ natDigits n
    else
      -- strip trailing zeros of the fractional part as JS printing does
      let digits := natDigits n
      let digits := if digits.length < k + 1 then
          List.replicate (k + 1 - digits.length) '0' ++ digits else digits
      let ip := digits.take (digits.length - k)
      let fp := (digits.drop (digits.length - k)).reverse.dropWhile (· = '0') |>.reverse
      if fp = [] then sign ++ ip else sign ++ ip ++ ['.'] ++ fp

mutual

/-- Models `String(value)` coercion (for the value shapes the claims touch). -/
def jsToStr : Val → Str
  | .vNull => lit "null"
  | .vUndefined => lit "undefined"
  | .vBool b => if b then lit "true" else lit "false"
  | .vNum .nan => lit "NaN"
  | .vNum (.num q) => ratToStr q
  | .vStr s => s
  | .vArr xs => jsToStrList xs
  | .vObj _ => lit "[object Object]"

/-- Models `String` coercion of an array: elements joined with `,`. -/
def jsToStrList : List Val → Str
  | [] => []
  | [x] => jsToStr x
  | x :: y :: t => jsToStr x ++ [','] ++ jsToStrList (y :: t)

end

/-- Replace every occurrence of one character by a replacement string
(`text.replace(/c/g, rep)`). -/
def replaceChar (c : Char) (rep : Str) (s : Str) : Str :=
  s.flatMap (fun x => if x = c then rep else [x])

/-- Models `TemplateEngine.escapeXml` (src/core/TemplateEngine.js line 987):
five sequential global single-character replaces.  Later replaces never
match inside earlier replacement text. -/
def escapeXml (s : Str) : Str :=
  replaceChar '\'' (lit "&apos;")
    (replaceChar '"' (lit "&quot;")
      (replaceChar '>' (lit "&gt;")
        (replaceChar '<' (lit "&lt;")
          (replaceChar '&' (lit "&amp;") s))))

/-! ## JSON serialization (used by `ExpressionEvaluator.serializeValue`) -/

/-- Quote a string as JSON does (escaping `"` and `\`; control-character
escapes are not needed by any statement below). -/
def jsonQuote (s : Str) : Str :=
  '"' :: s.flatMap (fun c => if c = '"' || c = '\\' then ['\\', c] else [c]) ++ ['"']

mutual

/-- Models `JSON.stringify` on the modelled value shapes.  `undefined` and `NaN`
inside arrays serialize as `null`, fields bound to `undefined` are
dropped, mirroring JavaScript. -/
def jsonOf : Val → Str
  | .vNull => lit "null"
  | .vUndefined => lit "null"
  | .vBool b => if b then lit "true" else lit "false"
  | .vNum .nan => lit "null"
  | .vNum (.num q) => ratToStr q
  | .vStr s => jsonQuote s
  | .vArr xs => '[' :: jsonOfList xs ++ [']']
  | .vObj fs => '\x7b' :: jsonOfFields fs ++ ['\x7d']

def jsonOfList : List Val → Str
  | [] => []
  | [x] => jsonOf x
  | x :: y :: t => jsonOf x ++ [','] ++ jsonOfList (y :: t)

/-- Fields bound to `undefined` are skipped; a comma precedes the next
serialized field when one exists. -/
def jsonOfFields : List (String × Val) → Str
  | [] => []
  | (k, v) :: t =>
    match v with
    | .vUndefined => jsonOfFields t
    | v =>
      jsonQuote k.toList ++ [':'] ++ jsonOf v ++
        (if t.any (fun f => !(f.2 matches .vUndefined)) then [','] ++ jsonOfFields t
         else jsonOfFields t)

end

/-! ## ExpressionEvaluator (src/core/ExpressionEvaluator.js) -/

/-- Models `ExpressionEvaluator.serializeValue` (line 239). -/
def serializeValue : Val → Str
  | .vNull => lit "null"
  | .vUndefined => lit "null"
  | .vStr s => '"' :: replaceChar '"' ['\\', '"'] s ++ ['"']
  | .vNum n => jsToStr (.vNum n)
  | .vBool b => jsToStr (.vBool b)
  | .vArr xs => jsonOf (.vArr xs)
  | .vObj fs => jsonOf (.vObj fs)

/-- Characters admitted after the first one by the simple-property regex
`^[a-zA-Z_][a-zA-Z0-9_.$\[\]]*$` (line 29). -/
def isSimpleTailChar (c : Char) : Bool :=
  isWordChar c || c = '.' || c = '$' || c = '[' || c = ']'

/-- The test `/^[a-zA-Z_][a-zA-Z0-9_.$\[\]]*$/.test(expr)` (line 29). -/
def isSimplePath : Str → Bool
  | [] => false
  | c :: t => isAlphaUnd c && t.all isSimpleTailChar

/-- Models `path.replace(/\[(\d+)\]/g, '.$1')` (lines 134, 188, 711):
rewrite every bracketed index `[123]` to `.123`. -/
def normalizePath : Str → Str
  | [] => []
  | c :: t =>
    if c = '[' then
      let ds := t.takeWhile isDigitChar
      if ds ≠ [] ∧ (t.drop ds.length).head? = some ']' then
        '.' :: ds ++ normalizePath (t.drop (ds.length + 1))
      else
        c :: normalizePath t
    else c :: normalizePath t
termination_by s => s.length
decreasing_by
  · have : (t.drop (ds.length + 1)).length ≤ t.length := by
      rw [List.length_drop]; omega
    simpa using Nat.lt_succ_of_le this
  · simp
  · simp

/-- JavaScript property read `current[key]` on an arbitrary value, for
own properties plus the `length` property of arrays and strings (the
only prototype property the templates use). -/
def valGet : Val → Str → Val
  | .vObj fs, k => objGet fs (String.mk k)
  | .vArr xs, k => if k = lit "length" then .vNum (.num xs.length) else .vUndefined
  | .vStr s, k => if k = lit "length" then .vNum (.num s.length) else .vUndefined
  | _, _ => .vUndefined

/-- Parse a known-all-digits key as a natural number (`parseInt`). -/
def keyToNat (k : Str) : Nat :=
  k.foldl (fun acc c => acc * 10 + (c.toNat - '0'.toNat)) 0

/-- The key loop shared by `getNestedValue` (lines 193–232), including
the mid-path `this` special case.  `current === null/undefined` checks,
the all-digits array branch and the `!== undefined` guard are as in the
source. -/
def walkKeys : List Str → Val → Val
  | [], cur => cur
  | key :: rest, cur =>
    match cur with
    | .vNull => .vNull
    | .vUndefined => .vNull
    | cur =>
      if key = lit "this" then
        match valGet cur (lit "this") with
        | .vUndefined => .vNull
        | v => walkKeys rest v
      else if key ≠ [] ∧ key.all isDigitChar then
        match cur with
        | .vArr xs =>
          if h : keyToNat key < xs.length then walkKeys rest (xs.get ⟨keyToNat key, h⟩)
          else .vNull
        | _ => .vNull
      else
        match valGet cur key with
        | .vUndefined => .vNull
        | v => walkKeys rest v

/-- The key loop of `getNestedProperty` (lines 139–164): as `walkKeys`
but without the mid-path `this` case. -/
def walkKeysP : List Str → Val → Val
  | [], cur => cur
  | key :: rest, cur =>
    match cur with
    | .vNull => .vNull
    | .vUndefined => .vNull
    | cur =>
      if key ≠ [] ∧ key.all isDigitChar then
        match cur with
        | .vArr xs =>
          if h : keyToNat key < xs.length then walkKeysP rest (xs.get ⟨keyToNat key, h⟩)
          else .vNull
        | _ => .vNull
      else
        match valGet cur key with
        | .vUndefined => .vNull
        | v => walkKeysP rest v

/-- Models `ExpressionEvaluator.getNestedProperty` (line 128). -/
def getNestedProperty (obj : Val) (path : Str) : Val :=
  if !(jsTruthy obj) || path = [] then .vNull
  else walkKeysP (splitOnChar '.' (normalizePath path)) obj

/-- Models `ExpressionEvaluator.getNestedValue` (line 170), with the leading
`this.` special case (lines 176–185). -/
def getNestedValue (obj : Val) (path : Str) : Val :=
  if !(jsTruthy obj) || path = [] then .vNull
  else if (lit "this.").isPrefixOf path then
    let this_ := valGet obj (lit "this")
    if jsTruthy this_ then getNestedProperty this_ (path.drop 5) else .vNull
  else
    walkKeys (splitOnChar '.' (normalizePath path)) obj

/-- Models `ExpressionEvaluator.isJavaScriptKeyword` (line 284). -/
def isJavaScriptKeyword (w : Str) : Bool :=
  [lit "true", lit "false", lit "null", lit "undefined",
   lit "Math", lit "Date", lit "parseInt", lit "parseFloat",
   lit "isNaN", lit "isFinite", lit "typeof", lit "instanceof"].contains w

/-! ### Regex helpers: word boundaries and boundary-delimited matching -/

/-- Word-ness of an optional neighbouring character (`none` = beyond
the string, which counts as non-word). -/
def optWord (c : Option Char) : Bool := (c.map isWordChar).getD false

/-- A `\b` boundary holds between two (optional) characters when their
word-ness differs. -/
def isBoundary (a b : Option Char) : Bool := optWord a != optWord b

/-- Downward scan used by `shrinkEnd`. -/
def shrinkEndAux (run : Str) : Nat → Option Nat
  | 0 => none
  | l + 1 =>
    if optWord run[l]? && !optWord run[l+1]? then some (l + 1)
    else shrinkEndAux run l

/-- Greedy backtracking for a trailing `\b` after a character-class run:
the greatest `ℓ ∈ [1, run.length]` such that `run[ℓ-1]` is a word
character and the character following the kept prefix (if inside the
run) is not.  The character after the full run is never a word
character because the scanned class contains every word character. -/
def shrinkEnd (run : Str) : Option Nat := shrinkEndAux run run.length

theorem shrinkEndAux_pos {run : Str} : ∀ {n l : Nat}, shrinkEndAux run n = some l → 1 ≤ l := by
  intro n
  induction n with
  | zero => intro l h; simp [shrinkEndAux] at h
  | succ m ih =>
    intro l h
    simp only [shrinkEndAux] at h
    split at h
    · cases h; omega
    · exact ih h

theorem shrinkEnd_pos {run : Str} {l : Nat} (h : shrinkEnd run = some l) : 1 ≤ l :=
  shrinkEndAux_pos h

/-- The character class `[a-zA-Z0-9_.$\[\]]` of the variable pattern. -/
def varClass (x : Char) : Bool :=
  isWordChar x || x = '.' || x = '$' || x = '[' || x = ']'

/-- Apply `shrinkEnd` to a candidate run, producing the kept match and
its length. -/
def varTrim (run : Str) : Option (Str × Nat) :=
  match shrinkEnd run with
  | some l => some (run.take l, l)
  | none => none

theorem varTrim_pos {run m : Str} {l : Nat} (h : varTrim run = some (m, l)) : 1 ≤ l := by
  unfold varTrim at h
  split at h
  · rename_i hsh
    simp only [Option.some.injEq, Prod.mk.injEq] at h
    rcases h with ⟨_, hl⟩
    subst hl
    exact shrinkEnd_pos hsh
  · exact absurd h (by simp)

/-- One variable-pattern match of `/\b([a-zA-Z_][a-zA-Z0-9_.$\[\]]*)\b/`
at the head of `s` (given the preceding character `prev`): the matched
variable and the number of characters consumed (always `≥ 1`). -/
def varMatchAt (prev : Option Char) (s : Str) : Option (Str × Nat) :=
  match s with
  | [] => none
  | c :: _ =>
    if isAlphaUnd c && isBoundary prev (some c) then varTrim (s.takeWhile varClass)
    else none

theorem varMatchAt_pos {prev : Option Char} {s : Str} {m : Str} {l : Nat}
    (h : varMatchAt prev s = some (m, l)) : 1 ≤ l := by
  unfold varMatchAt at h
  split at h
  · exact absurd h (by simp)
  · split at h
    · exact varTrim_pos h
    · exact absurd h (by simp)

/-- Models `[...expression.matchAll(variablePattern)]` (line 87): all matches,
left to right, scanning resuming after each match. -/
def varMatches (prev : Option Char) (s : Str) : List Str :=
  match h : varMatchAt prev s with
  | some (m, l) => m :: varMatches s[l-1]? (s.drop l)
  | none =>
    match s with
    | [] => []
    | c :: t => varMatches (some c) t
termination_by s.length
decreasing_by
  · have hl := varMatchAt_pos h
    cases s with
    | nil => simp [varMatchAt] at h
    | cons c t => simp only [List.length_drop, List.length_cons]; omega
  · simp

/-- Stable insertion keeping longer strings first (the comparator
`(a, b) => b[0].length - a[0].length` of line 90 under a stable sort). -/
def insertByLenDesc (x : Str) : List Str → List Str
  | [] => [x]
  | y :: t => if y.length < x.length then x :: y :: t else y :: insertByLenDesc x t

/-- Models `matches.sort((a, b) => b[0].length - a[0].length)` (line 90). -/
def sortByLenDesc (l : List Str) : List Str :=
  l.foldl (fun acc x => insertByLenDesc x acc) []

/-- Replace, left to right and non-overlapping, every occurrence of the
literal `pat` that sits between two `\b` boundaries
(`new RegExp('\\b' + escapeRegExp(v) + '\\b', 'g')`, line 106). -/
def boundaryReplaceAll (pat rep : Str) (prev : Option Char) (s : Str) : Str :=
  if h : pat ≠ [] ∧ pat.isPrefixOf s ∧
      isBoundary prev pat.head? ∧ isBoundary pat.getLast? (s.drop pat.length).head? then
    rep ++ boundaryReplaceAll pat rep pat.getLast? (s.drop pat.length)
  else
    match s with
    | [] => []
    | c :: t => c :: boundaryReplaceAll pat rep (some c) t
termination_by s.length
decreasing_by
  · rcases h with ⟨hne, hpre, -, -⟩
    have hs : s ≠ [] := by
      intro hs
      subst hs
      have := List.isPrefixOf_iff_prefix.mp hpre
      simp at this
      exact hne this
    have hlen : 1 ≤ pat.length := by
      cases pat with
      | nil => exact absurd rfl hne
      | cons _ _ => simp
    cases s with
    | nil => exact absurd rfl hs
    | cons c t => simp only [List.length_drop, List.length_cons]; omega
  · simp

/-! ### The host-facing environment

`ExpressionEvaluator.safeEvaluate` (line 263) builds a JavaScript
function from the expression string with `new Function(...)` and runs
it.  That host evaluation has no meaning inside the embedding; it is
modelled by the oracle `hostEval` (`none` models a thrown exception,
which `safeEvaluate` catches, returning `null`).  The other fields model
the `Intl` and `moment` host libraries used by `FormatHelper`. -/
structure HostEnv where
  hostEval : Str → Option Val
  intl : String → String → ℚ → Str
  momentFmt : Val → Str → Option Str
  momentFromNow : Val → Option Str

/-- The host environment in which every `new Function` evaluation throws
and the formatting libraries return empty text — the concrete
environment used to evaluate the model on closed inputs. -/
def hostFail : HostEnv :=
  ⟨fun _ => none, fun _ _ _ => [], fun _ _ => none, fun _ => none⟩

/-- Instrumented `safeEvaluate`: the returned list records the
expression strings handed to the host `Function` constructor — the
observable fact that the host interpreter ran. -/
def safeEvaluateT (env : HostEnv) (e : Str) : Val × List Str :=
  (match env.hostEval e with
   | some v => v
   | none => .vNull, [e])

/-- Models `ExpressionEvaluator.evaluateComplexExpression` (line 79),
instrumented: substitute each matched variable (longest first) by its
serialized value between word boundaries, then hand the resulting
string to the host. -/
def evaluateComplexExpressionT (env : HostEnv) (expr : Str) (data : Val) : Val × List Str :=
  let ms := sortByLenDesc (varMatches none expr)
  let processed := ms.foldl
    (fun acc v =>
      if isJavaScriptKeyword v then acc
      else boundaryReplaceAll v (serializeValue (getNestedValue data v)) none acc)
    expr
  safeEvaluateT env processed

/-- Models `ExpressionEvaluator.evaluate` (line 22), instrumented.  The empty
expression short-circuits to `null`; a simple property path is resolved
without host involvement; anything else goes through
`evaluateComplexExpression` and hence through the host. -/
def evaluateT (env : HostEnv) (expr : Str) (data : Val) : Val × List Str :=
  if expr = [] then (.vNull, [])
  else if isSimplePath (trimStr expr) then (getNestedValue data (trimStr expr), [])
  else evaluateComplexExpressionT env expr data

/-- Models `ExpressionEvaluator.evaluate`, result only. -/
def evaluate (env : HostEnv) (expr : Str) (data : Val) : Val :=
  (evaluateT env expr data).1

/-- Models `ExpressionEvaluator.normalizeCondition` (line 117): word-bounded
textual operator rewrites, in source order. -/
def normalizeCondition (c : Str) : Str :=
  boundaryReplaceAll (lit "equals") (lit "==") none
    (boundaryReplaceAll (lit "isn't") (lit "!=") none
      (boundaryReplaceAll (lit "is") (lit "==") none
        (boundaryReplaceAll (lit "not") (lit "!") none
          (boundaryReplaceAll (lit "or") (lit "||") none
            (boundaryReplaceAll (lit "and") (lit "&&") none c)))))

/-! ## FormatHelper (src/core/FormatHelper.js) -/

/-- Models `Number(value) || 0` — the coercion all numeric formatters start
with (`NaN` and `0` both land on `0`). -/
def numOr0 (v : Val) : ℚ :=
  match jsToNumber v with
  | .nan => 0
  | .num q => q

/-- Models `num.toFixed(d)`: round to `d` decimals (exact ties toward the
larger value, as the host specifies) and print with exactly `d`
fractional digits. -/
def toFixed (q : ℚ) (d : Nat) : Str :=
  let n : ℤ := Int.floor (q * 10 ^ d + 1/2)
  let sign : Str := if n < 0 then ['-'] else []
  let m := n.natAbs
  if d = 0 then sign ++ natDigits m
  else
    let digits := natDigits m
    let digits := if digits.length < d + 1 then
        List.replicate (d + 1 - digits.length) '0' ++ digits else digits
    sign ++ digits.take (digits.length - d) ++ ['.'] ++ digits.drop (digits.length - d)

/-- Models `parseInt` on a string argument. -/
def parseIntStr (s : Str) : JsNum :=
  let t := trimStr s
  let (sign, rest) : ℤ × Str :=
    match t with
    | '-' :: r => (-1, r)
    | '+' :: r => (1, r)
    | r => (1, r)
  let ds := rest.takeWhile isDigitChar
  if ds = [] then .nan
  else
    let n : ℕ := ds.foldl (fun acc c => acc * 10 + (c.toNat - '0'.toNat)) 0
    .num ((sign * (n : ℤ) : ℤ) : ℚ)

/-- ASCII upper-casing (`String.prototype.toUpperCase` on the template
data that occurs here). -/
def upperStr (s : Str) : Str := s.map Char.toUpper

/-- ASCII lower-casing. -/
def lowerStr (s : Str) : Str := s.map Char.toLower

/-- Models `FormatHelper.getNestedValue` (line 165): a plain `split('.')`
reduce with a truthiness-and-defined guard. -/
def fhGetNested (v : Val) (path : Str) : Val :=
  (splitOnChar '.' path).foldl
    (fun cur key =>
      if jsTruthy cur && !((valGet cur key) matches .vUndefined) then valGet cur key
      else .vNull)
    v

/-- Result of one formatter: a plain value, or a value with styling
information (`{ value, format: {...} }` as returned by
`bold`/`italic`/`underline`/`size`/`color`). -/
inductive FmtOut where
  | plain (v : Val)
  | styled (v : Val) (fmt : List (String × Val))

/-- JavaScript multiplication with `NaN` propagation. -/
def jsMul : JsNum → JsNum → JsNum
  | .num a, .num b => .num (a * b)
  | _, _ => .nan

/-- JavaScript division restricted to nonzero divisors (`NaN`
otherwise; an infinite quotient never arises in the claims). -/
def jsDiv : JsNum → JsNum → JsNum
  | .num a, .num b => if b = 0 then .nan else .num (a / b)
  | _, _ => .nan

/-- Models `Math.pow(10, e)` for the exponents reachable here (integers; a
fractional exponent — unreachable — yields `NaN`). -/
def jsPow10 : JsNum → JsNum
  | .nan => .nan
  | .num q => if q.den = 1 then .num ((10 : ℚ) ^ (q.num : ℤ)) else .nan

/-- Models `Math.round` (half toward `+∞`), `NaN`-propagating. -/
def jsRound : JsNum → JsNum
  | .nan => .nan
  | .num q => .num ((Int.floor (q + 1/2) : ℤ) : ℚ)

/-- The first positional formatter argument as the JavaScript value the
formatter receives (`undefined` when absent, else the trimmed string). -/
def fmtArg (args : List Str) (i : Nat) : Val :=
  match args[i]? with
  | some a => .vStr a
  | none => .vUndefined

/-- Models `FormatHelper.setupDefaultFormatters` (lines 10–128): the registry,
as a dispatch on the formatter name.  `none` = unknown formatter (the
caller warns and leaves the value unchanged).  The three moment-based
formatters consult the host environment. -/
def runFormatter (env : HostEnv) (name : Str) (v : Val) (args : List Str) : Option FmtOut :=
  if name = lit "upper" then some (.plain (.vStr (upperStr (jsToStr v))))
  else if name = lit "lower" then some (.plain (.vStr (lowerStr (jsToStr v))))
  else if name = lit "capitalize" then
    some (.plain (.vStr
      (match jsToStr v with
       | [] => []
       | c :: t => Char.toUpper c :: lowerStr t)))
  else if name = lit "trim" then some (.plain (.vStr (trimStr (jsToStr v))))
  else if name = lit "currency" then
    -- options is the raw string argument, so `options.currency` and
    -- `options.locale` are undefined and the defaults apply
    let opts := fmtArg args 0
    let cur := match valGet opts (lit "currency") with
      | .vStr s => if s ≠ [] then String.mk s else "USD"
      | _ => "USD"
    some (.plain (.vStr (env.intl "en-US" cur (numOr0 v))))
  else if name = lit "number" then
    let opts := fmtArg args 0
    let d : Nat := match valGet opts (lit "decimals") with
      | .vUndefined => 2
      | dv => (Int.floor (numOr0 dv)).toNat
    some (.plain (.vStr (toFixed (numOr0 v) d)))
  else if name = lit "percent" then
    some (.plain (.vStr (toFixed (numOr0 v * 100) 2 ++ ['%'])))
  else if name = lit "round" then
    let places := fmtArg args 0
    let pw := jsPow10 (match places with
      | .vUndefined => .num 0
      | p => jsToNumber p)
    some (.plain (.vNum (jsDiv (jsRound (jsMul (.num (numOr0 v)) pw)) pw)))
  else if name = lit "date" then
    if !(jsTruthy v) then some (.plain (.vStr []))
    else some (.plain (.vStr
      (match env.momentFmt v (match args[0]? with | some a => a | none => lit "YYYY-MM-DD") with
       | some s => s
       | none => jsToStr v)))
  else if name = lit "dateTime" then
    if !(jsTruthy v) then some (.plain (.vStr []))
    else some (.plain (.vStr
      (match env.momentFmt v (match args[0]? with | some a => a | none => lit "YYYY-MM-DD HH:mm:ss") with
       | some s => s
       | none => jsToStr v)))
  else if name = lit "fromNow" then
    if !(jsTruthy v) then some (.plain (.vStr []))
    else some (.plain (.vStr
      (match env.momentFromNow v with
       | some s => s
       | none => jsToStr v)))
  else if name = lit "join" then
    let sep := match args[0]? with | some a => a | none => lit ", "
    some (.plain (match v with
      | .vArr xs => .vStr (joinSep sep (xs.map jsToStr))
      | v => .vStr (jsToStr v)))
  else if name = lit "length" then
    some (.plain (match v with
      | .vArr xs => .vNum (.num xs.length)
      | .vStr s => .vNum (.num s.length)
      | _ => .vNum (.num 0)))
  else if name = lit "sum" then
    some (.plain (match v with
      | .vArr xs => .vNum (.num (xs.foldl
          (fun acc item =>
            acc + numOr0 (match args[0]? with
              | some f => fhGetNested item f
              | none => item)) 0))
      | _ => .vNum (.num 0)))
  else if name = lit "count" then
    some (.plain (match v with
      | .vArr xs => .vNum (.num xs.length)
      | _ => .vNum (.num 0)))
  else if name = lit "avg" then
    some (.plain (match v with
      | .vArr [] => .vNum (.num 0)
      | .vArr xs => .vNum (.num ((xs.foldl
          (fun acc item =>
            acc + numOr0 (match args[0]? with
              | some f => fhGetNested item f
              | none => item)) 0) / xs.length))
      | _ => .vNum (.num 0)))
  else if name = lit "truncate" then
    let n : Nat := match fmtArg args 0 with
      | .vUndefined => 50
      | a => (Int.floor (numOr0 a)).toNat
    let s := jsToStr v
    some (.plain (.vStr (if n < s.length then s.take n ++ lit "..." else s)))
  else if name = lit "default" then
    let alt := match fmtArg args 0 with
      | .vUndefined => .vStr []
      | a => a
    some (.plain (match v with
      | .vNull => alt
      | .vUndefined => alt
      | .vStr [] => alt
      | v => v))
  else if name = lit "escape" then
    some (.plain (.vStr (escapeXml (jsToStr v))))
  else if name = lit "bold" then some (.styled v [("bold", .vBool true)])
  else if name = lit "italic" then some (.styled v [("italic", .vBool true)])
  else if name = lit "underline" then some (.styled v [("underline", .vBool true)])
  else if name = lit "size" then
    some (.styled v [("size", .vNum (match fmtArg args 0 with
      | .vStr s => parseIntStr s
      | _ => .nan))])
  else if name = lit "color" then
    some (.styled v [("color", fmtArg args 0)])
  else none

/-- Models `FormatHelper.applyFormatters` (line 130): fold the pipe segments
over the value, accumulating styling; wrap in a
`{ value, formatting }` object when any styling accrued. -/
def applyFormatters (env : HostEnv) (v : Val) (fmts : List Str) : Val :=
  let (result, formatting) := fmts.foldl
    (fun (acc : Val × List (String × Val)) fexpr =>
      let parts := splitOnChar ':' fexpr
      let name := trimStr (parts.headD [])
      let args := (parts.drop 1).map trimStr
      match runFormatter env name acc.1 args with
      | none => acc
      | some (.plain r) => (r, acc.2)
      | some (.styled r fs) => (r, fs.foldl (fun m f => objSet m f.1 f.2) acc.2))
    (v, [])
  if !formatting.isEmpty then .vObj [("value", result), ("formatting", .vObj formatting)]
  else result

/-- The check `value && typeof value === 'object' && value.formatting`
used by the variable processors. -/
def isFormattingObj (v : Val) : Bool :=
  jsTruthy v &&
    (match v with
     | .vObj _ => true
     | .vArr _ => true
     | _ => false) &&
    jsTruthy (valGet v (lit "formatting"))

/-! ### Specification lemmas for the scanners -/

theorem splitFirst_eq {pat : Str} (hpat : pat ≠ []) :
    ∀ {s b a : Str}, splitFirst pat s = some (b, a) → s = b ++ pat ++ a := by
  intro s
  induction s with
  | nil =>
    intro b a h
    simp only [splitFirst, List.isEmpty_iff] at h
    split at h
    · exact absurd (by assumption) hpat
    · simp at h
  | cons c cs ih =>
    intro b a h
    simp only [splitFirst] at h
    split at h
    · rename_i hpre
      simp only [Option.some.injEq, Prod.mk.injEq] at h
      rcases h with ⟨hb, ha⟩
      subst hb; subst ha
      rcases List.isPrefixOf_iff_prefix.mp hpre with ⟨t, ht⟩
      conv_lhs => rw [← ht]
      simp [← ht]
    · cases h' : splitFirst pat cs with
      | none => rw [h'] at h; simp at h
      | some p =>
        rw [h'] at h
        simp only [Option.map_some'] at h
        cases h
        have := ih h'
        simp [this]

theorem splitFirstChar_eq {ch : Char} :
    ∀ {s b a : Str}, splitFirstChar ch s = some (b, a) → s = b ++ ch :: a := by
  intro s
  induction s with
  | nil => intro b a h; simp [splitFirstChar] at h
  | cons c cs ih =>
    intro b a h
    simp only [splitFirstChar] at h
    split at h
    · rename_i hc
      subst hc
      simp only [Option.some.injEq, Prod.mk.injEq] at h
      rcases h with ⟨hb, ha⟩
      subst hb; subst ha
      simp
    · cases h' : splitFirstChar ch cs with
      | none => rw [h'] at h; simp at h
      | some p =>
        rw [h'] at h
        simp only [Option.map_some'] at h
        cases h
        have := ih h'
        simp [this]

theorem idxOf_fit {pat : Str} :
    ∀ {s : Str} {i : Nat}, idxOf s pat = some i → i + pat.length ≤ s.length := by
  intro s
  induction s with
  | nil =>
    intro i h
    unfold idxOf at h
    split at h
    · rename_i hpre
      cases h
      have := (List.isPrefixOf_iff_prefix.mp hpre).length_le
      simpa using this
    · simp at h
  | cons c cs ih =>
    intro i h
    unfold idxOf at h
    split at h
    · rename_i hpre
      cases h
      have := (List.isPrefixOf_iff_prefix.mp hpre).length_le
      simpa using this
    · have h2 : Option.map Nat.succ (idxOf cs pat) = some i := h
      cases h' : idxOf cs pat with
      | none => rw [h'] at h2; simp at h2
      | some j =>
        rw [h'] at h2
        simp only [Option.map_some'] at h2
        cases h2
        have := ih h'
        simp only [List.length_cons]
        omega

theorem idxOfFrom_bounds {s pat : Str} {start i : Nat} (hpat : pat ≠ [])
    (h : idxOfFrom s pat start = some i) :
    start ≤ i ∧ i + pat.length ≤ s.length := by
  have hl : 1 ≤ pat.length := by
    cases pat with
    | nil => exact absurd rfl hpat
    | cons _ _ => simp
  unfold idxOfFrom at h
  cases h' : idxOf (s.drop start) pat with
  | none => rw [h'] at h; simp at h
  | some j =>
    rw [h'] at h
    simp only [Option.map_some'] at h
    cases h
    have := idxOf_fit h'
    rw [List.length_drop] at this
    constructor
    · omega
    · omega

/-! ## TemplateEngine condition machinery (src/core/TemplateEngine.js) -/

/-- Models `TemplateEngine.parseValue` (line 620). -/
def parseValue (s : Str) : Val :=
  let t := trimStr s
  match parseDecimal t with
  | some q => .vNum (.num q)
  | none =>
    if (t.head? = some '"' ∧ t.getLast? = some '"') ∨
       (t.head? = some '\'' ∧ t.getLast? = some '\'') then
      .vStr ((t.drop 1).dropLast)
    else if t = lit "true" then .vBool true
    else if t = lit "false" then .vBool false
    else if t = lit "null" then .vNull
    else .vStr t

/-- Lexicographic character-code comparison (JavaScript `<` between two
strings). -/
def lexLt : Str → Str → Bool
  | [], [] => false
  | [], _ :: _ => true
  | _ :: _, [] => false
  | a :: as_, b :: bs =>
    if a.toNat < b.toNat then true
    else if b.toNat < a.toNat then false
    else lexLt as_ bs

/-- JavaScript relational comparison for the operators of
`evaluateConditionInLoop` (line 599): string/string compares
lexicographically; anything else coerces both sides to numbers, and any
`NaN` makes the comparison false. -/
def jsRel (op : Str) (a b : Val) : Bool :=
  match a, b with
  | .vStr x, .vStr y =>
    if op = lit ">=" then !(lexLt x y)
    else if op = lit "<=" then !(lexLt y x)
    else if op = lit ">" then lexLt y x
    else lexLt x y
  | a, b =>
    match jsToNumber a, jsToNumber b with
    | .num x, .num y =>
      if op = lit ">=" then decide (y ≤ x)
      else if op = lit "<=" then decide (x ≤ y)
      else if op = lit ">" then decide (y < x)
      else decide (x < y)
    | _, _ => false

/-- JavaScript loose equality `==` for the value shapes `parseValue`
produces (numbers, strings, booleans, `null`). -/
def jsEq (a b : Val) : Bool :=
  match a, b with
  | .vNull, b => (b matches .vNull) || (b matches .vUndefined)
  | .vUndefined, b => (b matches .vNull) || (b matches .vUndefined)
  | a, .vNull => (a matches .vNull) || (a matches .vUndefined)
  | a, .vUndefined => (a matches .vNull) || (a matches .vUndefined)
  | .vStr x, .vStr y => x = y
  | .vBool x, .vBool y => x = y
  | a, b =>
    match jsToNumber a, jsToNumber b with
    | .num x, .num y => x = y
    | _, _ => false

/-- The operator alternation `(>=|<=|==|!=|>|<)`, in preference order. -/
def opHead (s : Str) : Option (Str × Str) :=
  if (lit ">=").isPrefixOf s then some (lit ">=", s.drop 2)
  else if (lit "<=").isPrefixOf s then some (lit "<=", s.drop 2)
  else if (lit "==").isPrefixOf s then some (lit "==", s.drop 2)
  else if (lit "!=").isPrefixOf s then some (lit "!=", s.drop 2)
  else if (lit ">").isPrefixOf s then some (lit ">", s.drop 1)
  else if (lit "<").isPrefixOf s then some (lit "<", s.drop 1)
  else none

/-- The right operand `\s*(.+?)$`: skip the whitespace, but give one
whitespace character back when nothing would remain. -/
def rightOperand (rest : Str) : Option Str :=
  let w := rest.takeWhile isWs
  let rem := rest.drop w.length
  if !rem.isEmpty then some rem
  else if !w.isEmpty then some (rest.drop (w.length - 1))
  else none

/-- One candidate split of `condition.match(/^(.+?)\s*(op)\s*(.+?)$/)`
(line 593) at left-operand length `i`: the operator must match right
after the maximal whitespace run following the first `i` characters. -/
def tryCompareAt (s : Str) (i : Nat) : Option (Str × Str × Str) :=
  let w := ((s.drop i).takeWhile isWs).length
  match opHead (s.drop (i + w)) with
  | some (op, rest) => (rightOperand rest).map (fun r => (s.take i, op, r))
  | none => none

/-- The full (lazy-left) comparison match: the shortest nonempty left
operand for which an operator follows. -/
def comparisonSplit (s : Str) : Option (Str × Str × Str) :=
  (List.range' 1 s.length).findSome? (fun i => tryCompareAt s i)

/-! ### The three `this.`-replacement passes -/

/-- Which of the three `this.<prop>` replacement regexes is running:
`evalCond` is `ExpressionEvaluator.evaluateCondition` (line 56),
`procCond` is `TemplateEngine.processConditions` (line 359), `loopCond`
is `TemplateEngine.evaluateConditionInLoop` (line 570). -/
inductive ThisVariant where
  | evalCond
  | procCond
  | loopCond

/-- The property-part match after `this.` for each variant:
`([a-zA-Z_][a-zA-Z0-9_]*)\b`, `(\w+)`, and `([a-zA-Z0-9_.]+)\b`
respectively.  Returns the captured property and consumed length. -/
def thisMatchProp (tv : ThisVariant) (s : Str) : Option (Str × Nat) :=
  match tv with
  | .evalCond =>
    match s with
    | c :: _ =>
      if isAlphaUnd c then
        let run := s.takeWhile isWordChar
        some (run, run.length)
      else none
    | [] => none
  | .procCond =>
    let run := s.takeWhile isWordChar
    if run.isEmpty then none else some (run, run.length)
  | .loopCond =>
    varTrim (s.takeWhile (fun c => isWordChar c || c = '.'))

/-- Serialization of a replaced `this.` value: `evalCond` uses
`serializeValue`; the two TemplateEngine variants use
``typeof value === 'string' ? `"${value}"` : String(value)``. -/
def quoteIfStr : Val → Str
  | .vStr s => '"' :: s ++ ['"']
  | v => jsToStr v

/-- The replacement text for one matched `this.<prop>` occurrence. -/
def thisReplValue (tv : ThisVariant) (data : Val) (prop : Str) : Str :=
  match tv with
  | .evalCond =>
    let t := valGet data (lit "this")
    if jsTruthy t then
      match valGet t prop with
      | .vUndefined => lit "null"
      | v => serializeValue v
    else lit "null"
  | .procCond =>
    let t := valGet data (lit "this")
    if jsTruthy t then
      match valGet t prop with
      | .vUndefined => lit "null"
      | v => quoteIfStr v
    else lit "null"
  | .loopCond =>
    let t := valGet data (lit "this")
    if jsTruthy t then
      match getNestedValue t prop with
      | .vNull => lit "null"
      | .vUndefined => lit "null"
      | v => quoteIfStr v
    else lit "null"

/-- The scanner for `/\bthis\.(…)/g`: find each word-bounded `this.`
followed by a property match, substitute the serialized value, and
resume after the match. -/
def thisReplScan (tv : ThisVariant) (data : Val) (prev : Option Char) (s : Str) : Str :=
  match s with
  | [] => []
  | c :: t =>
    if (lit "this.").isPrefixOf (c :: t) ∧ isBoundary prev (some c) then
      match thisMatchProp tv ((c :: t).drop 5) with
      | some (prop, l) =>
        thisReplValue tv data prop ++
          thisReplScan tv data prop.getLast? ((c :: t).drop (5 + l))
      | none => c :: thisReplScan tv data (some c) t
    else c :: thisReplScan tv data (some c) t
termination_by s.length
decreasing_by
  · simp only [List.length_drop, List.length_cons]; omega
  · simp
  · simp

/-- Models `ExpressionEvaluator.evaluateCondition` (line 43): normalize,
replace `this.` properties, then evaluate as a complex expression.
(The `catch` branch returning `false` is unreachable: no step of the
model throws.) -/
def evaluateCondition (env : HostEnv) (cond : Str) (data : Val) : Val :=
  (evaluateComplexExpressionT env
    (thisReplScan .evalCond data none (normalizeCondition cond)) data).1

/-- Models `TemplateEngine.evaluateConditionInLoop` (line 566): replace `this.`
paths, then either a single comparison via `parseValue`, or plain
truthiness. -/
def evaluateConditionInLoop (data : Val) (cond : Str) : Bool :=
  let processed := thisReplScan .loopCond data none cond
  match comparisonSplit processed with
  | some (l, op, r) =>
    let lv := parseValue (trimStr l)
    let rv := parseValue (trimStr r)
    if op = lit "==" then jsEq lv rv
    else if op = lit "!=" then !(jsEq lv rv)
    else jsRel op lv rv
  | none => jsTruthy (parseValue processed)

/-! ## TemplateEngine directive scanners -/

/-- Models `TemplateEngine.getNestedProperty`'s key loop (line 716): unlike the
evaluator's variant, the generic branch assigns `current = current[key]`
without an `undefined` guard, so a missing final key yields
`undefined`. -/
def walkKeysTE : List Str → Val → Val
  | [], cur => cur
  | key :: rest, cur =>
    match cur with
    | .vNull => .vNull
    | .vUndefined => .vNull
    | cur =>
      if key ≠ [] ∧ key.all isDigitChar then
        match cur with
        | .vArr xs =>
          if h : keyToNat key < xs.length then walkKeysTE rest (xs.get ⟨keyToNat key, h⟩)
          else .vNull
        | _ => .vNull
      else walkKeysTE rest (valGet cur key)

/-- Models `TemplateEngine.getNestedProperty` (line 707). -/
def getNestedPropertyTE (obj : Val) (path : Str) : Val :=
  if !(jsTruthy obj) || path = [] then .vNull
  else walkKeysTE (splitOnChar '.' (normalizePath path)) obj

/-- One match of the interpolation regex `/\$\{([^}]+)\}/` at the head
of the string: the captured expression (the nonempty text up to the
first closing brace) and the remaining input after that brace. -/
def varDirAt (s : Str) : Option (Str × Str) :=
  match s with
  | '$' :: '\x7b' :: r =>
    match splitFirstChar '\x7d' r with
    | some (e, rest) => if e.isEmpty then none else some (e, rest)
    | none => none
  | _ => none

theorem varDirAt_rest_lt {s e rest : Str} (h : varDirAt s = some (e, rest)) :
    rest.length < s.length := by
  unfold varDirAt at h
  split at h
  · rename_i r
    split at h
    · rename_i e' rest' heq
      split at h
      · simp at h
      · simp only [Option.some.injEq, Prod.mk.injEq] at h
        rcases h with ⟨-, hr⟩
        subst hr
        have := splitFirstChar_snd_length heq
        simp only [List.length_cons]
        omega
    · simp at h
  · simp at h

/-- The global interpolation replacement pass
(`xml.replace(/\$\{([^}]+)\}/g, fn)`): leftmost matches, replaced text
not rescanned. -/
def scanDirs (repl : Str → Str) : Str → Str
  | [] => []
  | c :: t =>
    match h : varDirAt (c :: t) with
    | some (e, rest) => repl e ++ scanDirs repl rest
    | none => c :: scanDirs repl t
termination_by s => s.length
decreasing_by
  · exact varDirAt_rest_lt h
  · simp

/-- Models `TemplateEngine.processVariablesInLoop`'s per-match replacement
(lines 648–704). -/
def pvilReplace (env : HostEnv) (data : Val) (e : Str) : Str :=
  let te := trimStr e
  if (lit "#each").isPrefixOf te ∨ (lit "#if").isPrefixOf te ∨
     (lit "/each").isPrefixOf te ∨ (lit "/if").isPrefixOf te then
    '$' :: '\x7b' :: e ++ ['\x7d']
  else
    let parts := splitOnChar '|' e
    let varPath := trimStr (parts.headD [])
    let fmts := (parts.drop 1).map trimStr
    let value :=
      if (lit "this.").isPrefixOf varPath then
        getNestedPropertyTE (valGet data (lit "this")) (varPath.drop 5)
      else if varPath = lit "this" then valGet data (lit "this")
      else if varPath = lit "index" then valGet data (lit "index")
      else if varPath = lit "first" then valGet data (lit "first")
      else if varPath = lit "last" then valGet data (lit "last")
      else if varPath = lit "count" then valGet data (lit "count")
      else evaluate env varPath data
    let value := if !fmts.isEmpty then applyFormatters env value fmts else value
    if isFormattingObj value then
      escapeXml (jsToStr (jsOr (valGet value (lit "value")) (.vStr [])))
    else
      escapeXml (jsToStr (match value with
        | .vUndefined => .vStr []
        | .vNull => .vStr []
        | v => v))

/-- Models `TemplateEngine.processVariablesInLoop` (line 644). -/
def processVariablesInLoop (env : HostEnv) (data : Val) (xml : Str) : Str :=
  scanDirs (pvilReplace env data) xml

/-- Models `TemplateEngine.processRemainingVariables`'s per-match replacement
(lines 267–303).  Control structures are left in place, unresolved
`this.` variables are deleted, and — the `value || ''` at line 299 —
falsy values render as the empty string. -/
def prvReplace (env : HostEnv) (data : Val) (e : Str) : Str :=
  if containsSub e (lit "#each") || containsSub e (lit "#if") ||
     containsSub e (lit "/each") || containsSub e (lit "/if") then
    '$' :: '\x7b' :: e ++ ['\x7d']
  else
    let parts := splitOnChar '|' e
    let varPath := trimStr (parts.headD [])
    let fmts := (parts.drop 1).map trimStr
    if (lit "this.").isPrefixOf varPath then []
    else
      let value := evaluate env varPath data
      let value := if !fmts.isEmpty then applyFormatters env value fmts else value
      if isFormattingObj value then
        escapeXml (jsToStr (jsOr (valGet value (lit "value")) (.vStr [])))
      else
        escapeXml (jsToStr (jsOr value (.vStr [])))

/-- Models `TemplateEngine.processRemainingVariables` (line 264). -/
def processRemainingVariables (env : HostEnv) (data : Val) (xml : Str) : Str :=
  scanDirs (prvReplace env data) xml

/-! ### The `#if` block scanner -/

/-- Walk the text after an `#if` opener collecting the then-branch,
until `${/if}` (no else) or `${#else}` followed somewhere by `${/if}`:
the lazy-group behaviour of
`/\$\{#if\s+([^}]+)\}([\s\S]*?)(?:\$\{#else\}([\s\S]*?))?\$\{\/if\}/`. -/
def scanIfBody (s : Str) : Option (Str × Option Str × Str) :=
  match s with
  | [] => none
  | c :: t =>
    if (lit "$\x7b/if\x7d").isPrefixOf (c :: t) then some ([], none, (c :: t).drop 6)
    else if (lit "$\x7b#else\x7d").isPrefixOf (c :: t) then
      match splitFirst (lit "$\x7b/if\x7d") ((c :: t).drop 8) with
      | some (c2, rest) => some ([], some c2, rest)
      | none => none
    else (scanIfBody t).map (fun p => (c :: p.1, p.2.1, p.2.2))

theorem scanIfBody_rest_lt :
    ∀ {s i : Str} {e : Option Str} {rest : Str},
      scanIfBody s = some (i, e, rest) → rest.length < s.length := by
  intro s
  induction s with
  | nil => intro i e rest h; simp [scanIfBody] at h
  | cons c t ih =>
    intro i e rest h
    simp only [scanIfBody] at h
    split at h
    · rename_i hpre
      simp only [Option.some.injEq, Prod.mk.injEq] at h
      rcases h with ⟨-, -, hr⟩
      subst hr
      have := (List.isPrefixOf_iff_prefix.mp hpre).length_le
      simp only [List.length_drop, List.length_cons]
      simp [lit] at this
      omega
    · split at h
      · rename_i hpre
        cases h' : splitFirst (lit "$\x7b/if\x7d") ((c :: t).drop 8) with
        | none => rw [h'] at h; simp at h
        | some p =>
          rw [h'] at h
          simp only [Option.some.injEq, Prod.mk.injEq] at h
          rcases h with ⟨-, -, hr⟩
          subst hr
          have heq := splitFirst_eq (by simp [lit]) h'
          have h8 := (List.isPrefixOf_iff_prefix.mp hpre).length_le
          have : ((c :: t).drop 8).length = p.1.length + 6 + p.2.length := by
            rw [heq]; simp [lit]; omega
          simp only [List.length_drop, List.length_cons] at this
          simp only [List.length_cons]
          omega
      · cases h' : scanIfBody t with
        | none => rw [h'] at h; simp at h
        | some p =>
          obtain ⟨pi, pe, pr⟩ := p
          rw [h'] at h
          simp only [Option.map_some', Option.some.injEq, Prod.mk.injEq] at h
          rcases h with ⟨-, -, hr⟩
          subst hr
          have := ih h'
          simp only [List.length_cons]
          omega

/-- The part of an `#if` match after the literal `${#if`: the seam
`\s+([^}]+)\}` followed by the block body.  The seam backtracks as the
host regex engine does: the block `B` before the first `}` must start
with whitespace and have at least two characters; the captured
condition drops the maximal whitespace run, shortened by one when it
would swallow all of `B`. -/
def ifMatchAfter (r : Str) : Option (Str × Str × Option Str × Str) :=
  match splitFirstChar '\x7d' r with
  | none => none
  | some (B, afterBrace) =>
    if B.head?.elim false isWs ∧ 2 ≤ B.length then
      match scanIfBody afterBrace with
      | some (i, e, rest) =>
        some (B.drop (min (B.takeWhile isWs).length (B.length - 1)), i, e, rest)
      | none => none
    else none

theorem ifMatchAfter_rest_lt {r cond i : Str} {e : Option Str} {rest : Str}
    (h : ifMatchAfter r = some (cond, i, e, rest)) : rest.length < r.length := by
  unfold ifMatchAfter at h
  split at h
  · simp at h
  · rename_i B afterBrace h1
    split at h
    · split at h
      · rename_i qi qe qr h2
        simp only [Option.some.injEq, Prod.mk.injEq] at h
        rcases h with ⟨-, -, -, hr⟩
        subst hr
        have hlt := scanIfBody_rest_lt h2
        have heq := splitFirstChar_eq h1
        have : r.length = B.length + 1 + afterBrace.length := by
          rw [heq]; simp; omega
        omega
      · simp at h
    · simp at h

/-- One match of the condition regex
`/\$\{#if\s+([^}]+)\}([\s\S]*?)(?:\$\{#else\}([\s\S]*?))?\$\{\/if\}/`
at the head of the string: `(cond, thenBranch, elseBranch?, rest)`. -/
def ifMatchAt (s : Str) : Option (Str × Str × Option Str × Str) :=
  if (lit "$\x7b#if").isPrefixOf s then ifMatchAfter (s.drop 5) else none

theorem ifMatchAt_rest_lt {s cond i : Str} {e : Option Str} {rest : Str}
    (h : ifMatchAt s = some (cond, i, e, rest)) : rest.length < s.length := by
  unfold ifMatchAt at h
  split at h
  · rename_i hpre
    have h5 := (List.isPrefixOf_iff_prefix.mp hpre).length_le
    simp [lit] at h5
    have := ifMatchAfter_rest_lt h
    simp only [List.length_drop] at this
    omega
  · simp at h

/-- The global condition replacement pass (`processConditions` /
`processConditionsInLoop` share it, with different per-match logic). -/
def scanIf (repl : Str → Str → Str → Str) : Str → Str
  | [] => []
  | c :: t =>
    match h : ifMatchAt (c :: t) with
    | some (cond, i, e, rest) => repl cond i (e.getD []) ++ scanIf repl rest
    | none => c :: scanIf repl t
termination_by s => s.length
decreasing_by
  · exact ifMatchAt_rest_lt h
  · simp

/-- Models `TemplateEngine.processConditions` (line 347): replace `this.`
properties (the `\bthis\.(\w+)` pass of line 359), evaluate through the
expression evaluator, pick the branch by truthiness.  (The `catch`
branch returning the then-branch is unreachable in the model: nothing
throws.) -/
def processConditions (env : HostEnv) (data : Val) (xml : Str) : Str :=
  scanIf (fun cond i e =>
    if jsTruthy (evaluateCondition env (thisReplScan .procCond data none cond) data)
    then i else e) xml

/-- Models `TemplateEngine.processConditionsInLoop` (line 546). -/
def processConditionsInLoop (data : Val) (xml : Str) : Str :=
  scanIf (fun cond i e => if evaluateConditionInLoop data cond then i else e) xml

/-! ## TemplateEngine.processLoops (lines 380–544) -/

/-- Models `loopStartMarker` (line 382). -/
def eachOpen : Str := lit "$\x7b#each "

/-- Models `loopEndMarker` (line 383). -/
def eachClose : Str := lit "$\x7b/each\x7d"

/-- The newline trimming of the loop body (lines 440–445), transcribed
literally: a leading `\n` (or, dead branch, `\r\n`) and a trailing `\n`
(or, dead branch, `\r\n`) are removed. -/
def trimLeadNl (content : Str) : Str :=
  if content.head? = some '\n' then content.drop 1
  else if (lit "\r\n").isPrefixOf content then content.drop 2
  else content

def trimTrailNl (c1 : Str) : Str :=
  if c1.getLast? = some '\n' then c1.dropLast
  else if (lit "\r\n").isSuffixOf c1 then c1.dropLast.dropLast
  else c1

def trimNl (content : Str) : Str := trimTrailNl (trimLeadNl content)

theorem trimLeadNl_length_le (c : Str) : (trimLeadNl c).length ≤ c.length := by
  unfold trimLeadNl
  split
  · simp
  · split <;> simp

theorem trimTrailNl_length_le (c : Str) : (trimTrailNl c).length ≤ c.length := by
  unfold trimTrailNl
  split
  · simp [List.length_dropLast]
  · split
    · calc c.dropLast.dropLast.length ≤ c.dropLast.length := by simp [List.length_dropLast]
        _ ≤ c.length := by simp [List.length_dropLast]
    · exact le_refl _

theorem trimNl_length_le (content : Str) : (trimNl content).length ≤ content.length :=
  le_trans (trimTrailNl_length_le _) (trimLeadNl_length_le _)

/-- The balanced-closer search of lines 399–428: from `cur`, find the
index of the `${/each}` that closes the block, skipping over nested
`${#each ` / `${/each}` pairs.  Returns `none` when no balanced closer
exists (the `-1` of the source). -/
def findCloseIdx (s : Str) (cur : Nat) (depth : Nat) : Option Nat :=
  if depth = 0 then none
  else if s.length ≤ cur then none
  else
    match hc : idxOfFrom s eachClose cur with
    | none => none
    | some nc =>
      match ho : idxOfFrom s eachOpen cur with
      | some no =>
        if no < nc then findCloseIdx s (no + 1) (depth + 1)
        else if depth = 1 then some nc
        else findCloseIdx s (nc + 1) (depth - 1)
      | none =>
        if depth = 1 then some nc
        else findCloseIdx s (nc + 1) (depth - 1)
termination_by s.length - cur
decreasing_by
  · have := (idxOfFrom_bounds (by simp [eachOpen, lit]) ho).1
    omega
  · have := (idxOfFrom_bounds (by simp [eachClose, lit]) hc).1
    omega
  · have := (idxOfFrom_bounds (by simp [eachClose, lit]) hc).1
    omega

/-- The per-iteration context object (lines 456–465): a spread copy of
`data` with the seven loop bindings added. -/
def fieldsOf : Val → Obj
  | .vObj o => o
  | _ => []

/-- Models `contextData` of one loop iteration. -/
def mkLoopCtx (data : Val) (item : Val) (idx n : Nat) : Val :=
  .vObj (objSet (objSet (objSet (objSet (objSet (objSet (objSet (fieldsOf data)
    "this" item)
    "parent" (valGet data (lit "this")))
    "_parentContext" data)
    "index" (.vNum (.num idx)))
    "first" (.vBool (decide (idx = 0))))
    "last" (.vBool (decide (idx = n - 1))))
    "count" (.vNum (.num n)))

mutual

/-- Models `TemplateEngine.processLoops` (line 380), as a scan over the still
unprocessed suffix.  The source's `while` loop keeps an absolute
`startIndex` into a string it rebuilds as
`before ++ loopResult ++ after` and never searches before `startIndex`
again; since every marker occurrence at an index `≥ startIndex` lies
wholly inside the current suffix, emitting the processed prefix and
recursing on the suffix is the same computation. -/
def processLoopsGo (env : HostEnv) (data : Val) (s : Str) : Str :=
  match h1 : splitFirst eachOpen s with
  | none => s
  | some (before, afterOpen) =>
    match h2 : splitFirstChar '\x7d' afterOpen with
    | none => s
    | some (rawPath, afterBrace) =>
      match findCloseIdx afterBrace 0 1 with
      | none =>
        -- no balanced closer: skip past the opening tag and continue
        before ++ eachOpen ++ rawPath ++ '\x7d' :: processLoopsGo env data afterBrace
      | some ci =>
        let content := trimNl (afterBrace.take ci)
        let afterClose := afterBrace.drop (ci + eachClose.length)
        let loopResult :=
          match evaluate env (trimStr rawPath) data with
          | .vArr items => joinSep ['\n'] (renderItems env data content items items.length 0)
          | _ => []
        before ++ loopResult ++ processLoopsGo env data afterClose
termination_by (s.length, 0)
decreasing_by
  · -- continue branch: afterBrace is a strict suffix
    have e1 := splitFirst_eq (by simp [eachOpen, lit]) h1
    have e2 := splitFirstChar_eq h2
    apply Prod.Lex.left
    rw [e1, e2]
    simp [eachOpen, lit]
    omega
  · -- into renderItems: the body is strictly shorter
    have e1 := splitFirst_eq (by simp [eachOpen, lit]) h1
    have e2 := splitFirstChar_eq h2
    apply Prod.Lex.left
    have hle : (trimNl (afterBrace.take ci)).length ≤ afterBrace.length := by
      calc (trimNl (afterBrace.take ci)).length ≤ (afterBrace.take ci).length :=
            trimNl_length_le _
        _ ≤ afterBrace.length := by simp
    rw [e1, e2]
    simp only [List.length_append, List.length_cons]
    simp [eachOpen, lit] at hle ⊢
    omega
  · -- after a replaced block: the tail after the closer is shorter
    have e1 := splitFirst_eq (by simp [eachOpen, lit]) h1
    have e2 := splitFirstChar_eq h2
    apply Prod.Lex.left
    rw [e1, e2]
    simp only [List.length_drop, List.length_append, List.length_cons]
    simp [eachOpen, eachClose, lit]
    omega

/-- The `arrayData.map((item, index) => …)` body of lines 455–478: each
item is rendered by processing nested loops, then in-loop conditions,
then in-loop variables, in a fresh context. -/
def renderItems (env : HostEnv) (data : Val) (content : Str) (items : List Val)
    (n : Nat) (idx : Nat) : List Str :=
  match items with
  | [] => []
  | item :: rest =>
    let ctx := mkLoopCtx data item idx n
    let s1 := processLoopsGo env ctx content
    let s2 := processVariablesInLoop env ctx (processConditionsInLoop ctx s1)
    s2 :: renderItems env data content rest n (idx + 1)
termination_by (content.length, items.length + 1)
decreasing_by
  · -- renderItems calls processLoopsGo on the same content
    apply Prod.Lex.right
    omega
  · -- renderItems recurses on the tail
    apply Prod.Lex.right
    simp only [List.length_cons]
    omega

end

/-- Models `TemplateEngine.processLoops`. -/
def processLoops (env : HostEnv) (data : Val) (xml : Str) : Str :=
  processLoopsGo env data xml

/-! ## The run-merging loop of `cleanWordXmlLikeLibreOffice`
(src/core/TemplateEngine.js lines 163–197) -/

/-- The shared literal head of all three merge patterns,
`</w:t></w:r><w:r`. -/
def mergeLit : Str := lit "</w:t></w:r><w:r"

/-- Match length of `/<\/w:t><\/w:r><w:r\s+[^>]*><w:t>/` at the head of
`s` (the first merge regex, line 173): the literal head, at least one
whitespace character, any non-`>` characters, `>`, then `<w:t>`. -/
def p1MatchAt (s : Str) : Option Nat :=
  if mergeLit.isPrefixOf s then
    let r := s.drop 16
    match r.head? with
    | some c =>
      if isWs c then
        let run := r.takeWhile (fun x => x ≠ '>')
        if (lit "><w:t>").isPrefixOf (r.drop run.length) then some (16 + run.length + 6)
        else none
      else none
    | none => none
  else none

/-- Match length of the attribute-free pattern
`/<\/w:t><\/w:r><w:r><w:t>/` (line 179). -/
def p2MatchAt (s : Str) : Option Nat :=
  if (mergeLit ++ lit "><w:t>").isPrefixOf s then some 22 else none

/-- Match length of
`/<\/w:t><\/w:r><w:r[^>]*><w:t\s+xml:space="preserve">/` (line 185). -/
def p3MatchAt (s : Str) : Option Nat :=
  if mergeLit.isPrefixOf s then
    let r := s.drop 16
    let run := r.takeWhile (fun x => x ≠ '>')
    let r2 := r.drop run.length
    if (lit "><w:t").isPrefixOf r2 then
      let r3 := r2.drop 5
      let w := r3.takeWhile isWs
      if !w.isEmpty ∧ (lit "xml:space=\"preserve\">").isPrefixOf (r3.drop w.length) then
        some (16 + run.length + 5 + w.length + 21)
      else none
    else none
  else none

/-- Delete every (leftmost, non-overlapping) match of a pattern whose
matches are never empty — one global `String.replace(pat, '')` pass. -/
def scanRemove (matchAt : Str → Option Nat)
    (hpos : ∀ s n, matchAt s = some n → 1 ≤ n) : Str → Str
  | [] => []
  | c :: t =>
    match h : matchAt (c :: t) with
    | some n => scanRemove matchAt hpos ((c :: t).drop n)
    | none => c :: scanRemove matchAt hpos t
termination_by s => s.length
decreasing_by
  · have := hpos _ _ h
    simp only [List.length_drop, List.length_cons]
    omega
  · simp

theorem p1MatchAt_pos (s : Str) (n : Nat) (h : p1MatchAt s = some n) : 1 ≤ n := by
  unfold p1MatchAt at h
  split at h
  · dsimp only at h
    split at h
    · split at h
      · split at h
        · simp only [Option.some.injEq] at h; omega
        · simp at h
      · simp at h
    · simp at h
  · simp at h

theorem p2MatchAt_pos (s : Str) (n : Nat) (h : p2MatchAt s = some n) : 1 ≤ n := by
  unfold p2MatchAt at h
  split at h
  · simp only [Option.some.injEq] at h; omega
  · simp at h

theorem p3MatchAt_pos (s : Str) (n : Nat) (h : p3MatchAt s = some n) : 1 ≤ n := by
  unfold p3MatchAt at h
  split at h
  · dsimp only at h
    split at h
    · split at h
      · simp only [Option.some.injEq] at h; omega
      · simp at h
    · simp at h
  · simp at h

/-- One pass of the merge loop body (lines 168–188): the three global
replaces, in source order. -/
def mergeStep (s : Str) : Str :=
  scanRemove p3MatchAt p3MatchAt_pos
    (scanRemove p2MatchAt p2MatchAt_pos
      (scanRemove p1MatchAt p1MatchAt_pos s))

/-- The `do … while` merge loop (lines 165–197): run one pass, bump the
counter, break past 20, else repeat while the text shrank.  Returns the
final text and the number of passes executed. -/
def mergeAux (xml : Str) (iterations : Nat) : Str × Nat :=
  let xml' := mergeStep xml
  let it' := iterations + 1
  if 20 < it' then (xml', it')
  else if xml'.length < xml.length then mergeAux xml' it'
  else (xml', it')
termination_by 20 - iterations
decreasing_by
  omega

/-- The merge loop as invoked by `cleanWordXmlLikeLibreOffice`:
final text and pass count. -/
def mergeLoop (xml : Str) : Str × Nat := mergeAux xml 0

/-- The literal `><w:t>` that closes the attribute-free merge pattern. -/
def mergeTail : Str := lit "><w:t>"

/-- `n` concatenated copies of a block. -/
def repStr (u : Str) : Nat → Str
  | 0 => []
  | n + 1 => u ++ repStr u n

/-- The nested input `(</w:t></w:r><w:r)^(m+1) (><w:t>)^(m+1)`: every
merge pass removes exactly the one balanced pair at the junction, so the
loop shrinks it one step at a time. -/
def nestP2 (m : Nat) : Str := repStr mergeLit (m + 1) ++ repStr mergeTail (m + 1)

/-! ## DocumentGenerator batch generation
(src/generators/DocumentGenerator.js lines 112–138 and 280–296) -/

/-- One slot of the result array of `generateMultipleDocuments`. -/
structure BatchItem where
  index : Nat
  success : Bool
  doc : Option Str
  err : Option String
deriving DecidableEq, Repr

/-- Build the result slot the `try`/`catch` of lines 116–134 pushes. -/
def batchItemOf (i : Nat) (r : Except String Str) : BatchItem :=
  match r with
  | .ok doc => ⟨i, true, some doc, none⟩
  | .error e => ⟨i, false, none, some e⟩

/-- The indexed loop of `generateMultipleDocuments`, parametric in the
outcome of `generateDocument` on each dataset (the surrounding template
and options are fixed for the whole call). -/
def gmdAux (gen : Obj → Except String Str) : List Obj → Nat → List BatchItem
  | [], _ => []
  | d :: t, i => batchItemOf i (gen d) :: gmdAux gen t (i + 1)

/-- Models `DocumentGenerator.generateMultipleDocuments` (line 112):
one slot per dataset, in order, indexed from 0. -/
def generateMultipleDocuments (gen : Obj → Except String Str) (dataArray : List Obj) :
    List BatchItem :=
  gmdAux gen dataArray 0

/-- Models `DocumentGenerator.batchGenerate`'s slicing loop (lines
284–293), for a positive effective batch size. -/
def batchAux (gen : Obj → Except String Str) (bs : Nat) (hbs : 1 ≤ bs) :
    List Obj → List BatchItem
  | [] => []
  | d :: t =>
    generateMultipleDocuments gen ((d :: t).take bs) ++
      batchAux gen bs hbs ((d :: t).drop bs)
termination_by l => l.length
decreasing_by
  simp only [List.length_drop, List.length_cons]
  omega

/-- Models `DocumentGenerator.batchGenerate` (line 280):
`batchSize = options.batchSize || 10`, then process slice by slice,
concatenating each slice's `generateMultipleDocuments` results. -/
def batchGenerate (gen : Obj → Except String Str) (batchSizeOpt : Nat)
    (dataArray : List Obj) : List BatchItem :=
  if h : batchSizeOpt = 0 then batchAux gen 10 (by omega) dataArray
  else batchAux gen batchSizeOpt (by omega) dataArray

/-! ## Table-row cleanup (`removeEmptyControlRows`, lines 906–942)

The source works on the XML text with three regex passes.  The model
works on a document already decomposed into its table rows, each row
carrying the contents of its `<w:t>` text leaves in order; this is the
granularity at which all three passes decide.  The third pass removes a
row exactly when it has at least one text leaf and every leaf trims to
the empty string; the first two passes only remove rows of that same
shape (their patterns demand `<w:t…>` elements with only whitespace
between the tags), so the filter below is the composite behaviour. -/

/-- Row whose text-leaf contents are `leaves`. -/
structure TRow where
  leaves : List Str
deriving DecidableEq, Repr

/-- The removal test of the third pass (lines 920–939): some `<w:t>`
matches exist and none has non-whitespace text. -/
def rowRemoved (r : TRow) : Bool :=
  !r.leaves.isEmpty && r.leaves.all (fun l => (trimStr l).isEmpty)

/-- Models `TemplateEngine.removeEmptyControlRows`. -/
def removeEmptyControlRows (rows : List TRow) : List TRow :=
  rows.filter (fun r => !(rowRemoved r))

/-- The concatenated text-leaf content of a row (what the claim calls
the row's text). -/
def rowText (r : TRow) : Str := r.leaves.foldr (· ++ ·) []

/-! ## Heap model for mutation freedom (C8)

`preprocessData` (DocumentGenerator.js line 162) and the loop-context
construction in `processLoops` (TemplateEngine.js lines 456–465) are
the two places the render pipeline builds objects out of the caller's
data.  To make "never mutates the caller's data object" a statement
rather than a tautology of a pure embedding, object identity is made
explicit: a heap is a list of objects, references are indices,
allocation appends, and every JavaScript field write is a `heapSet` on
the reference the source writes through.  A faithful translation of a
mutating implementation (for example one assigning `data.this = item`)
would `heapSet` the caller's reference; the actual source only ever
writes through references it freshly allocated. -/

abbrev Heap := List Obj

/-- Allocate a new object; returns the extended heap and the fresh
reference. -/
def halloc (h : Heap) (o : Obj) : Heap × Nat := (h ++ [o], h.length)

/-- Dereference. -/
def hget (h : Heap) (r : Nat) : Obj := (h.get? r).getD []

/-- Field write through a reference (`o[k] = v`). -/
def hset (h : Heap) (r : Nat) (k : String) (v : Val) : Heap :=
  h.set r (objSet (hget h r) k v)

/-- The `JSON.parse(JSON.stringify(data))` deep clone of line 164:
fields holding `undefined` are dropped; the resulting value tree is
fresh by construction. -/
def jsonClone (o : Obj) : Obj := o.filter (fun f => !(f.2 matches .vUndefined))

/-- Models `DocumentGenerator.preprocessData` (lines 162–194): clone the
caller's object into a fresh allocation, then write `_meta` and
`_helpers` into the clone.  (`normalizeTextFields` rebuilds the value
tree functionally and touches no existing object; it is dropped here as
it allocates no reference the claim can see.)  Returns the heap and the
reference to the processed data. -/
def preprocessDataH (h : Heap) (dref : Nat) (meta helpers : Val) : Heap × Nat :=
  let hp := halloc h (jsonClone (hget h dref))
  let h2 := hset hp.1 hp.2 "_meta" meta
  let h3 := hset h2 hp.2 "_helpers" helpers
  (h3, hp.2)

/-- The per-iteration `contextData` of `processLoops` (lines 456–465) as
a heap allocation: a spread copy of the object behind `dref` plus the
seven loop bindings — a fresh object, never a write through `dref`. -/
def mkLoopCtxH (h : Heap) (dref : Nat) (item : Val) (idx n : Nat) : Heap × Nat :=
  halloc h
    (objSet (objSet (objSet (objSet (objSet (objSet (objSet (hget h dref)
      "this" item)
      "parent" (objGet (hget h dref) "this"))
      "_parentContext" (.vObj (hget h dref)))
      "index" (.vNum (.num idx)))
      "first" (.vBool (decide (idx = 0))))
      "last" (.vBool (decide (idx = n - 1))))
      "count" (.vNum (.num n)))

/-- One loop expansion over a dataset reference: allocate the iteration
contexts one by one (mirroring `arrayData.map((item, index) => …)`),
returning the final heap and the context references. -/
def loopCtxsH (h : Heap) (dref : Nat) (items : List Val) (n idx : Nat) : Heap × List Nat :=
  match items with
  | [] => (h, [])
  | item :: rest =>
    let hc := mkLoopCtxH h dref item idx n
    let hrest := loopCtxsH hc.1 dref rest n (idx + 1)
    (hrest.1, hc.2 :: hrest.2)

/-- The heap-level render pipeline for one document: preprocess the
caller's data (clone + metadata), then expand a loop over `items` with
per-iteration contexts.  Returns the final heap. -/
def renderPipelineH (h : Heap) (dref : Nat) (meta helpers : Val) (items : List Val) : Heap :=
  let pp := preprocessDataH h dref meta helpers
  (loopCtxsH pp.1 pp.2 items items.length 0).1

/-! ## Occurrence lemmas for the scanners -/

theorem isPrefixOf_append_self (pat rest : Str) : pat.isPrefixOf (pat ++ rest) = true :=
  List.isPrefixOf_iff_prefix.mpr (List.prefix_append pat rest)

theorem splitFirst_self {pat : Str} (hpat : pat ≠ []) (rest : Str) :
    splitFirst pat (pat ++ rest) = some ([], rest) := by
  cases pat with
  | nil => exact absurd rfl hpat
  | cons a b =>
    have hpre : (a :: b).isPrefixOf (a :: (b ++ rest)) = true := by
      simpa using isPrefixOf_append_self (a :: b) rest
    show splitFirst (a :: b) (a :: (b ++ rest)) = some ([], rest)
    simp [splitFirst, hpre, List.drop_left]

theorem splitFirstChar_append {ch : Char} :
    ∀ {u : Str}, ch ∉ u → ∀ (rest : Str), splitFirstChar ch (u ++ ch :: rest) = some (u, rest) := by
  intro u
  induction u with
  | nil =>
    intro _ rest
    simp [splitFirstChar]
  | cons c t ih =>
    intro hmem rest
    have hc : c ≠ ch := by
      intro hc; exact hmem (by simp [hc])
    have ht : ch ∉ t := fun hm => hmem (by simp [hm])
    have := ih ht rest
    simp only [List.cons_append, splitFirstChar, if_neg hc]
    simp [this]

theorem splitFirstChar_none {ch : Char} :
    ∀ {u : Str}, ch ∉ u → splitFirstChar ch u = none := by
  intro u
  induction u with
  | nil => intro _; simp [splitFirstChar]
  | cons c t ih =>
    intro hmem
    have hc : c ≠ ch := by
      intro hc; exact hmem (by simp [hc])
    have ht : ch ∉ t := fun hm => hmem (by simp [hm])
    simp [splitFirstChar, if_neg hc, ih ht]

theorem splitOnChar_single {ch : Char} {u : Str} (h : ch ∉ u) :
    splitOnChar ch u = [u] := by
  unfold splitOnChar
  rw [splitFirstChar_none h]

/-- Models `joinSep` with a single-character separator, unfolded once. -/
theorem joinSep_cons_cons (ch : Char) (x y : Str) (t : List Str) :
    joinSep [ch] (x :: y :: t) = x ++ ch :: joinSep [ch] (y :: t) := by
  simp [joinSep]

theorem splitOnChar_joinSep {ch : Char} :
    ∀ {segs : List Str}, segs ≠ [] → (∀ s ∈ segs, ch ∉ s) →
      splitOnChar ch (joinSep [ch] segs) = segs := by
  intro segs
  induction segs with
  | nil => intro h; exact absurd rfl h
  | cons x t ih =>
    intro _ hmem
    cases t with
    | nil =>
      simp only [joinSep]
      exact splitOnChar_single (hmem x (by simp))
    | cons y tt =>
      rw [joinSep_cons_cons]
      unfold splitOnChar
      rw [splitFirstChar_append (hmem x (by simp)) _]
      have := ih (by simp) (fun s hs => hmem s (by simp [hs]))
      simp [this]

theorem idxOf_first {pat : Str} (hpat : pat ≠ []) :
    ∀ {n : Nat} {s : Str}, (∀ i < n, ¬ pat.isPrefixOf (s.drop i)) →
      pat.isPrefixOf (s.drop n) → idxOf s pat = some n := by
  intro n
  induction n with
  | zero =>
    intro s _ hyes
    unfold idxOf
    simp only [List.drop_zero] at hyes
    simp [hyes]
  | succ m ih =>
    intro s hno hyes
    have h0 : ¬ pat.isPrefixOf s := by
      have := hno 0 (by omega)
      simpa using this
    cases s with
    | nil =>
      exfalso
      simp only [List.drop_nil] at hyes
      have : pat = [] := by
        rcases List.isPrefixOf_iff_prefix.mp hyes with h
        simpa using h.length_le.antisymm (by simp)
      exact hpat this
    | cons c t =>
      unfold idxOf
      rw [if_neg h0]
      have := @ih t
        (fun i hi => by
          have := hno (i + 1) (by omega)
          simpa using this)
        (by simpa using hyes)
      simp [this]

theorem idxOf_none {pat : Str} :
    ∀ {s : Str}, (∀ i, ¬ pat.isPrefixOf (s.drop i)) → idxOf s pat = none := by
  intro s
  induction s with
  | nil =>
    intro hno
    unfold idxOf
    have := hno 0
    simp only [List.drop_nil] at this
    simp [this]
  | cons c t ih =>
    intro hno
    unfold idxOf
    have h0 := hno 0
    simp only [List.drop_zero] at h0
    rw [if_neg h0]
    have := ih (fun i => by
      have := hno (i + 1)
      simpa using this)
    simp [this]

/-- Models the fact that a pattern cannot start inside text that
disagrees with its head characters: if the available prefix `u` is not
what the pattern starts with, the pattern does not match there,
whatever follows. -/
theorem not_isPrefixOf_append_of_take_ne {pat u : Str} (hlen : u.length ≤ pat.length)
    (hne : pat.take u.length ≠ u) (rest : Str) :
    ¬ pat.isPrefixOf (u ++ rest) := by
  intro hpre
  rcases List.isPrefixOf_iff_prefix.mp hpre with ⟨t, ht⟩
  apply hne
  have : u = (u ++ rest).take u.length := by simp
  rw [← ht] at this
  rw [List.take_append_of_le_length hlen] at this
  exact this.symm

theorem isPrefixOf_mem_head {pat : Str} {c : Char} {t s : Str}
    (hpat : pat = c :: t) (hpre : pat.isPrefixOf s = true) : c ∈ s := by
  rcases List.isPrefixOf_iff_prefix.mp hpre with ⟨r, hr⟩
  subst hpat
  rw [← hr]
  simp

theorem containsSub_false_of_head_notin {s : Str} {c : Char} {t : Str}
    (hmem : c ∉ s) : containsSub s (c :: t) = false := by
  unfold containsSub
  rw [idxOf_none]
  · rfl
  · intro i hpre
    have := isPrefixOf_mem_head rfl hpre
    exact hmem (List.mem_of_mem_drop this)

theorem trimStr_id {s : Str} (h : ∀ c ∈ s, isWs c = false) : trimStr s = s := by
  unfold trimStr
  have h1 : s.dropWhile isWs = s := by
    cases s with
    | nil => rfl
    | cons c t => simp [List.dropWhile_cons, h c (by simp)]
  rw [h1]
  have h2 : s.reverse.dropWhile isWs = s.reverse := by
    cases hr : s.reverse with
    | nil => rfl
    | cons c t =>
      have hc : c ∈ s := by
        have : c ∈ s.reverse := by rw [hr]; simp
        simpa using this
      simp [List.dropWhile_cons, h c hc]
  rw [h2, List.reverse_reverse]

theorem normalizePath_id : ∀ {s : Str}, '[' ∉ s → normalizePath s = s := by
  intro s
  induction s with
  | nil => intro _; simp [normalizePath]
  | cons c t ih =>
    intro hmem
    have hc : c ≠ '[' := fun h => hmem (by simp [h])
    rw [normalizePath]
    simp [hc, ih (fun hm => hmem (by simp [hm]))]

/-! ## The loop-expansion specification -/

theorem idxOfFrom_zero (s pat : Str) : idxOfFrom s pat 0 = idxOf s pat := by
  unfold idxOfFrom
  simp

theorem eachOpen_notin_close : ∀ j, eachOpen.isPrefixOf (eachClose.drop j) = false := by
  intro j
  by_cases hj : j < 9
  · interval_cases j <;> decide
  · have : eachClose.drop j = [] := List.drop_eq_nil_of_le (by
      have : eachClose.length = 8 := by decide
      omega)
    rw [this]
    decide

/-- Models the balanced-closer scan on a body free of loop markers: the
closer is found exactly at the end of the body. -/
theorem findCloseIdx_flat (body : Str)
    (hcl : ∀ i < body.length, eachClose.isPrefixOf ((body ++ eachClose).drop i) = false)
    (hop : ∀ i < body.length, eachOpen.isPrefixOf ((body ++ eachClose).drop i) = false) :
    findCloseIdx (body ++ eachClose) 0 1 = some body.length := by
  have hclose_at : eachClose.isPrefixOf ((body ++ eachClose).drop body.length) = true := by
    rw [List.drop_left]
    simpa using isPrefixOf_append_self eachClose []
  have hidxc : idxOf (body ++ eachClose) eachClose = some body.length := by
    apply idxOf_first (by decide)
    · intro i hi
      simp [hcl i hi]
    · exact hclose_at
  have hidxo : idxOf (body ++ eachClose) eachOpen = none := by
    apply idxOf_none
    intro i
    by_cases hi : i < body.length
    · simp [hop i hi]
    · obtain ⟨k, rfl⟩ : ∃ k, i = body.length + k := ⟨i - body.length, by omega⟩
      rw [List.drop_append]
      simp [eachOpen_notin_close]
  rw [findCloseIdx]
  have hlen : ¬ ((body ++ eachClose).length ≤ 0) := by
    intro hcontra
    rw [List.length_append] at hcontra
    have h8 : eachClose.length = 8 := by decide
    omega
  simp only [if_neg (by omega : ¬ (1 : Nat) = 0), if_neg hlen]
  rw [idxOfFrom_zero, idxOfFrom_zero]
  split
  · rename_i heq
    rw [hidxc] at heq
    cases heq
  · rename_i nc heq
    rw [hidxc] at heq
    have hnc : nc = body.length := by
      simpa using heq.symm
    subst hnc
    split
    · rename_i no heq2
      rw [hidxo] at heq2
      cases heq2
    · simp

theorem processLoopsGo_nil (env : HostEnv) (data : Val) :
    processLoopsGo env data [] = [] := by
  rw [processLoopsGo]
  split
  · rfl
  · rename_i before afterOpen heq
    exfalso
    have hnone : splitFirst eachOpen ([] : Str) = none := by decide
    rw [hnone] at heq
    cases heq

theorem renderItems_length (env : HostEnv) (data : Val) (content : Str) :
    ∀ (items : List Val) (n idx : Nat),
      (renderItems env data content items n idx).length = items.length := by
  intro items
  induction items with
  | nil => intro n idx; rw [renderItems]; rfl
  | cons item rest ih =>
    intro n idx
    rw [renderItems]
    simp [ih]

/-- Models one flat `${#each L}body${/each}` expansion, symbolically:
with an identifier-shaped list path and a body free of loop markers,
`processLoops` resolves the path, renders one copy of the (newline
trimmed) body per element — nested loops, then conditions, then
variables, each under that element's context — and joins the copies
with a newline. -/
theorem processLoops_each_spec (env : HostEnv) (data : Val) (L body : Str)
    (items : List Val)
    (hL0 : L ≠ [])
    (hLbr : '\x7d' ∉ L)
    (hLws : ∀ c ∈ L, isWs c = false)
    (hcl : ∀ i < body.length, eachClose.isPrefixOf ((body ++ eachClose).drop i) = false)
    (hop : ∀ i < body.length, eachOpen.isPrefixOf ((body ++ eachClose).drop i) = false)
    (hev : evaluate env L data = .vArr items) :
    processLoops env data (eachOpen ++ (L ++ '\x7d' :: (body ++ eachClose))) =
      joinSep ['\n'] (renderItems env data (trimNl body) items items.length 0) := by
  have hsplit1 : splitFirst eachOpen (eachOpen ++ (L ++ '\x7d' :: (body ++ eachClose))) =
      some ([], L ++ '\x7d' :: (body ++ eachClose)) := splitFirst_self (by decide) _
  have hsplit2 : splitFirstChar '\x7d' (L ++ '\x7d' :: (body ++ eachClose)) =
      some (L, body ++ eachClose) := splitFirstChar_append hLbr _
  unfold processLoops
  rw [processLoopsGo]
  split
  · rename_i heq
    rw [hsplit1] at heq
    cases heq
  · rename_i before afterOpen heq
    rw [hsplit1] at heq
    simp only [Option.some.injEq, Prod.mk.injEq] at heq
    obtain ⟨hb, ha⟩ := heq
    subst hb
    subst ha
    split
    · rename_i heq2
      rw [hsplit2] at heq2
      cases heq2
    · rename_i rawPath afterBrace heq2
      rw [hsplit2] at heq2
      simp only [Option.some.injEq, Prod.mk.injEq] at heq2
      obtain ⟨hr, hab⟩ := heq2
      subst hr
      subst hab
      rw [findCloseIdx_flat body hcl hop]
      simp only [List.take_left, trimStr_id hLws, hev]
      have hdropall : (body ++ eachClose).drop (body.length + eachClose.length) = [] := by
        rw [List.drop_append]
        simp
      rw [hdropall, processLoopsGo_nil]
      simp

/-! ## The interpolation specification -/

/-- An identifier-shaped path segment: nonempty, first character a
letter or underscore, the rest word characters; not all digits (implied,
carried as a conjunct for direct use) and not the reserved word
`this`. -/
def identSeg (s : Str) : Bool :=
  (match s with
   | [] => false
   | c :: t => isAlphaUnd c && t.all isWordChar) &&
  !(s.all isDigitChar) && !(s = lit "this")

/-- Modelled from the claim's wording: the value of a dotted path in the
data tree, `none` when any step is absent (or explicitly `undefined`).
This is the specification-side meaning of "path P present in data",
compared below against the source's `getNestedValue`. -/
def objPath : List Str → Val → Option Val
  | [], v => some v
  | k :: rest, v =>
    match v with
    | .vObj fs =>
      match objGet fs (String.mk k) with
      | .vUndefined => none
      | w => objPath rest w
    | _ => none

theorem walkKeys_objPath :
    ∀ (segs : List Str) (cur : Val) (v : Val),
      (∀ s ∈ segs, identSeg s = true) → objPath segs cur = some v →
      jsTruthy v = true → walkKeys segs cur = v := by
  intro segs
  induction segs with
  | nil =>
    intro cur v _ hpath _
    simp only [objPath, Option.some.injEq] at hpath
    subst hpath
    rfl
  | cons k rest ih =>
    intro cur v hid hpath htr
    have hk := hid k (by simp)
    unfold identSeg at hk
    simp only [Bool.and_eq_true, Bool.not_eq_true'] at hk
    obtain ⟨⟨hshape, hdig⟩, hthis⟩ := hk
    cases cur with
    | vObj fs =>
      unfold objPath at hpath
      dsimp only at hpath
      unfold walkKeys
      have hkne : ¬ (k = lit "this") := by
        intro h; rw [h] at hthis; simp at hthis
      have hdigits : ¬ (k ≠ [] ∧ k.all isDigitChar = true) := by
        rintro ⟨-, hall⟩
        rw [hall] at hdig
        cases hdig
      dsimp only
      rw [if_neg hkne, if_neg hdigits]
      have hval : valGet (.vObj fs) k = objGet fs (String.mk k) := rfl
      rw [hval]
      cases hw : objGet fs (String.mk k) with
      | vUndefined =>
        rw [hw] at hpath
        dsimp only at hpath
        cases hpath
      | vNull =>
        rw [hw] at hpath
        dsimp only at hpath
        cases rest with
        | nil =>
          simp only [objPath, Option.some.injEq] at hpath
          subst hpath
          simp [jsTruthy] at htr
        | cons r t => simp [objPath] at hpath
      | vBool b =>
        rw [hw] at hpath
        dsimp only at hpath
        cases rest with
        | nil =>
          simp only [objPath, Option.some.injEq] at hpath
          subst hpath
          rfl
        | cons r t => simp [objPath] at hpath
      | vNum n =>
        rw [hw] at hpath
        dsimp only at hpath
        cases rest with
        | nil =>
          simp only [objPath, Option.some.injEq] at hpath
          subst hpath
          rfl
        | cons r t => simp [objPath] at hpath
      | vStr s =>
        rw [hw] at hpath
        dsimp only at hpath
        cases rest with
        | nil =>
          simp only [objPath, Option.some.injEq] at hpath
          subst hpath
          rfl
        | cons r t => simp [objPath] at hpath
      | vArr xs =>
        rw [hw] at hpath
        dsimp only at hpath
        cases rest with
        | nil =>
          simp only [objPath, Option.some.injEq] at hpath
          subst hpath
          rfl
        | cons r t => simp [objPath] at hpath
      | vObj fs2 =>
        rw [hw] at hpath
        dsimp only at hpath
        exact ih _ _ (fun s hs => hid s (by simp [hs])) hpath htr
    | vNull => simp [objPath] at hpath
    | vUndefined => simp [objPath] at hpath
    | vBool b => simp [objPath] at hpath
    | vNum n => simp [objPath] at hpath
    | vStr s => simp [objPath] at hpath
    | vArr xs => simp [objPath] at hpath

theorem evaluate_simple (env : HostEnv) (P : Str) (data : Val)
    (hP0 : P ≠ []) (hsimple : isSimplePath (trimStr P) = true) :
    evaluate env P data = getNestedValue data (trimStr P) := by
  unfold evaluate evaluateT
  rw [if_neg hP0, if_pos hsimple]

theorem scanDirs_nil (repl : Str → Str) : scanDirs repl [] = [] := by
  rw [scanDirs]

/-- Models the variable-replacement pass on a template that is exactly
one interpolation directive over an expression free of closing
braces. -/
theorem scanDirs_single (repl : Str → Str) (e : Str)
    (he0 : ¬ e.isEmpty) (hebr : '\x7d' ∉ e) :
    scanDirs repl ('$' :: '\x7b' :: (e ++ ['\x7d'])) = repl e := by
  have hdir : varDirAt ('$' :: '\x7b' :: (e ++ ['\x7d'])) = some (e, []) := by
    have hsp : splitFirstChar '\x7d' (e ++ ['\x7d']) = some (e, []) := by
      have := splitFirstChar_append hebr ([] : Str)
      simpa using this
    have hstep : varDirAt ('$' :: '\x7b' :: (e ++ ['\x7d'])) =
        (match splitFirstChar '\x7d' (e ++ ['\x7d']) with
         | some (e', rest) => if e'.isEmpty then none else some (e', rest)
         | none => none) := rfl
    rw [hstep, hsp]
    simp [he0]
  rw [scanDirs]
  split
  · rename_i e' rest heq
    rw [hdir] at heq
    simp only [Option.some.injEq, Prod.mk.injEq] at heq
    obtain ⟨he, hr⟩ := heq
    subst he
    subst hr
    rw [scanDirs_nil]
    simp
  · rename_i heq
    rw [hdir] at heq
    cases heq

/-- The character set of a dotted identifier path: every character is a
word character or a dot. -/
def pathChars (P : Str) : Prop := ∀ c ∈ P, isWordChar c = true ∨ c = '.'

theorem pathChars_not_ws {P : Str} (h : pathChars P) : ∀ c ∈ P, isWs c = false := by
  intro c hc
  rcases h c hc with hw | hd
  · by_cases h1 : c = ' '
    · subst h1; exact absurd hw (by decide)
    · by_cases h2 : c = '\t'
      · subst h2; exact absurd hw (by decide)
      · by_cases h3 : c = '\n'
        · subst h3; exact absurd hw (by decide)
        · by_cases h4 : c = '\r'
          · subst h4; exact absurd hw (by decide)
          · simp [isWs, h1, h2, h3, h4]
  · subst hd
    decide

theorem pathChars_not_mem {P : Str} (h : pathChars P) {x : Char}
    (hx1 : isWordChar x = false) (hx2 : x ≠ '.') : x ∉ P := by
  intro hmem
  rcases h x hmem with hw | hd
  · rw [hx1] at hw; cases hw
  · exact hx2 hd

/-- Models the full pipeline for a single interpolation directive
`${P}` over a dotted identifier path: the captured expression survives
the control-structure checks, the pipe split, the trim and the `this.`
test, and the emitted text is the XML escape of
`String(evaluate(P) || '')`. -/
theorem prv_single (env : HostEnv) (d : Obj) (P : Str)
    (hchars : pathChars P)
    (hsimple : isSimplePath P = true)
    (hthis : (lit "this.").isPrefixOf P = false)
    (hfmt : isFormattingObj (evaluate env P (.vObj d)) = false) :
    processRemainingVariables env (.vObj d) ('$' :: '\x7b' :: (P ++ ['\x7d'])) =
      escapeXml (jsToStr (jsOr (evaluate env P (.vObj d)) (.vStr []))) := by
  have hP0 : P ≠ [] := by
    intro h; rw [h] at hsimple; simp [isSimplePath] at hsimple
  have hPbr : '\x7d' ∉ P := pathChars_not_mem hchars (by decide) (by decide)
  unfold processRemainingVariables
  rw [scanDirs_single _ _ (by simpa using hP0) hPbr]
  unfold prvReplace
  have hc1 : containsSub P (lit "#each") = false :=
    containsSub_false_of_head_notin (pathChars_not_mem hchars (by decide) (by decide))
  have hc2 : containsSub P (lit "#if") = false :=
    containsSub_false_of_head_notin (pathChars_not_mem hchars (by decide) (by decide))
  have hc3 : containsSub P (lit "/each") = false :=
    containsSub_false_of_head_notin (pathChars_not_mem hchars (by decide) (by decide))
  have hc4 : containsSub P (lit "/if") = false :=
    containsSub_false_of_head_notin (pathChars_not_mem hchars (by decide) (by decide))
  rw [hc1, hc2, hc3, hc4]
  have hsplitbar : splitOnChar '|' P = [P] :=
    splitOnChar_single (pathChars_not_mem hchars (by decide) (by decide))
  simp only [Bool.false_eq_true, if_false, Bool.or_self, hsplitbar]
  simp only [List.headD_cons, List.drop_succ_cons, List.drop_zero, List.drop_nil,
    List.map_nil, List.isEmpty_nil, Bool.not_true, Bool.false_eq_true, if_false]
  rw [trimStr_id (pathChars_not_ws hchars)]
  rw [hthis]
  simp only [Bool.false_eq_true, if_false]
  rw [hfmt]
  simp

theorem joinSep_chars {ch : Char} :
    ∀ {segs : List Str} {c : Char}, c ∈ joinSep [ch] segs →
      c = ch ∨ ∃ s ∈ segs, c ∈ s := by
  intro segs
  induction segs with
  | nil => intro c hc; simp [joinSep] at hc
  | cons x t ih =>
    intro c hc
    cases t with
    | nil =>
      simp only [joinSep] at hc
      exact Or.inr ⟨x, by simp, hc⟩
    | cons y tt =>
      rw [joinSep_cons_cons] at hc
      rcases List.mem_append.mp hc with hx | hrest
      · exact Or.inr ⟨x, by simp, hx⟩
      · rcases List.mem_cons.mp hrest with hch | hjoin
        · exact Or.inl hch
        · rcases ih hjoin with h | ⟨s, hs, hcs⟩
          · exact Or.inl h
          · exact Or.inr ⟨s, by simp [hs], hcs⟩

theorem identSeg_pathChars {segs : List Str} (hid : ∀ s ∈ segs, identSeg s = true) :
    pathChars (joinSep ['.'] segs) := by
  intro c hc
  rcases joinSep_chars hc with hch | ⟨s, hs, hcs⟩
  · exact Or.inr hch
  · left
    have h := hid s hs
    unfold identSeg at h
    simp only [Bool.and_eq_true] at h
    obtain ⟨⟨hshape, -⟩, -⟩ := h
    cases s with
    | nil => cases hshape
    | cons a t =>
      simp only [Bool.and_eq_true] at hshape
      obtain ⟨ha, ht⟩ := hshape
      rcases List.mem_cons.mp hcs with rfl | hct
      · -- the head is a letter or underscore, hence a word character
        revert ha
        unfold isAlphaUnd isWordChar
        intro ha
        simp only [Bool.or_eq_true] at ha ⊢
        rcases ha with (h | h) | h
        · exact Or.inl (Or.inl (Or.inl h))
        · exact Or.inl (Or.inl (Or.inr h))
        · exact Or.inr h
      · exact (List.all_eq_true.mp ht) c hct

theorem isSimplePath_joinSep {segs : List Str} (hsegs : segs ≠ [])
    (hid : ∀ s ∈ segs, identSeg s = true) :
    isSimplePath (joinSep ['.'] segs) = true := by
  have hchars := identSeg_pathChars hid
  cases segs with
  | nil => exact absurd rfl hsegs
  | cons s t =>
    have hs := hid s (by simp)
    unfold identSeg at hs
    simp only [Bool.and_eq_true] at hs
    obtain ⟨⟨hshape, -⟩, -⟩ := hs
    cases s with
    | nil => cases hshape
    | cons a u =>
      simp only [Bool.and_eq_true] at hshape
      obtain ⟨ha, -⟩ := hshape
      have hform : ∃ rest, joinSep ['.'] ((a :: u) :: t) = a :: rest := by
        cases t with
        | nil => exact ⟨u, by simp [joinSep]⟩
        | cons y tt => exact ⟨u ++ '.' :: joinSep ['.'] (y :: tt), by rw [joinSep_cons_cons]; simp⟩
      obtain ⟨rest, hrest⟩ := hform
      rw [hrest]
      unfold isSimplePath
      simp only [Bool.and_eq_true]
      constructor
      · exact ha
      · rw [List.all_eq_true]
        intro c hc
        have hcP : c ∈ joinSep ['.'] ((a :: u) :: t) := by rw [hrest]; simp [hc]
        rcases hchars c hcP with hw | hd
        · unfold isSimpleTailChar
          simp [hw]
        · subst hd
          decide

/-! ## The condition-scanner specification -/

theorem isPrefixOf_append_of_le {pat u : Str} (h : pat.length ≤ u.length) (rest : Str) :
    pat.isPrefixOf (u ++ rest) = pat.isPrefixOf u := by
  have h1 : pat.isPrefixOf (u ++ rest) = true ↔ pat.isPrefixOf u = true := by
    rw [List.isPrefixOf_iff_prefix, List.isPrefixOf_iff_prefix,
        List.prefix_iff_eq_take, List.prefix_iff_eq_take,
        List.take_append_of_le_length h]
  cases h2 : pat.isPrefixOf u
  · cases h3 : pat.isPrefixOf (u ++ rest)
    · rfl
    · have := h1.mp h3
      rw [h2] at this
      cases this
  · exact h1.mpr h2

theorem splitFirst_first {pat : Str} (hpat : pat ≠ []) :
    ∀ {n : Nat} {s : Str}, (∀ i < n, ¬ pat.isPrefixOf (s.drop i)) →
      pat.isPrefixOf (s.drop n) →
      splitFirst pat s = some (s.take n, s.drop (n + pat.length)) := by
  intro n
  induction n with
  | zero =>
    intro s _ hyes
    simp only [List.drop_zero] at hyes
    cases s with
    | nil =>
      exfalso
      have := (List.isPrefixOf_iff_prefix.mp hyes).length_le
      cases pat with
      | nil => exact hpat rfl
      | cons a b => simp at this
    | cons c t =>
      unfold splitFirst
      simp [hyes]
  | succ m ih =>
    intro s hno hyes
    have h0 : ¬ pat.isPrefixOf s := by
      have := hno 0 (by omega)
      simpa using this
    cases s with
    | nil =>
      exfalso
      simp only [List.drop_nil] at hyes
      have := (List.isPrefixOf_iff_prefix.mp hyes).length_le
      cases pat with
      | nil => exact hpat rfl
      | cons a b => simp at this
    | cons c t =>
      unfold splitFirst
      rw [if_neg h0]
      have := @ih t
        (fun i hi => by
          have := hno (i + 1) (by omega)
          simpa using this)
        (by simpa using hyes)
      rw [this]
      simp only [Option.map_some', Option.some.injEq, Prod.mk.injEq,
        List.take_succ_cons]
      refine ⟨by trivial, ?_⟩
      rw [show m + 1 + pat.length = (m + pat.length) + 1 from by omega,
        List.drop_succ_cons]

/-- Models walking the then-branch scanner across marker-free text. -/
theorem scanIfBody_append :
    ∀ {u : Str} {rest : Str},
      (∀ i < u.length,
        (lit "$\x7b/if\x7d").isPrefixOf ((u ++ rest).drop i) = false ∧
        (lit "$\x7b#else\x7d").isPrefixOf ((u ++ rest).drop i) = false) →
      scanIfBody (u ++ rest) =
        (scanIfBody rest).map (fun p => (u ++ p.1, p.2.1, p.2.2)) := by
  intro u
  induction u with
  | nil =>
    intro rest _
    simp only [List.nil_append]
    cases h : scanIfBody rest with
    | none => simp
    | some p => simp
  | cons c t ih =>
    intro rest hno
    have h0 := hno 0 (by simp)
    simp only [List.drop_zero] at h0
    obtain ⟨h01, h02⟩ := h0
    rw [show ((c :: t) ++ rest) = c :: (t ++ rest) from rfl] at h01 h02
    have hstep : scanIfBody (c :: (t ++ rest)) =
        (scanIfBody (t ++ rest)).map (fun p => (c :: p.1, p.2.1, p.2.2)) := by
      rw [scanIfBody.eq_def]
      dsimp only
      rw [if_neg (by rw [h01]; decide), if_neg (by rw [h02]; decide)]
    have hih := @ih rest (fun i hi => by
      have := hno (i + 1) (by simp; omega)
      simpa using this)
    rw [show ((c :: t) ++ rest) = c :: (t ++ rest) from rfl, hstep, hih,
      Option.map_map]
    cases scanIfBody rest with
    | none => rfl
    | some p => rfl

/-- Models the else-branch recognition: at `${#else}` the scanner
captures everything up to the first `${/if}`. -/
theorem scanIfBody_else (B tail : Str)
    (hB : ∀ i < B.length, ¬ (lit "$\x7b/if\x7d").isPrefixOf ((B ++ lit "$\x7b/if\x7d" ++ tail).drop i)) :
    scanIfBody (lit "$\x7b#else\x7d" ++ (B ++ lit "$\x7b/if\x7d" ++ tail)) =
      some ([], some B, tail) := by
  have hM : (lit "$\x7b#else\x7d" ++ (B ++ lit "$\x7b/if\x7d" ++ tail)) =
      '$' :: (lit "\x7b#else\x7d" ++ (B ++ lit "$\x7b/if\x7d" ++ tail)) := rfl
  rw [hM]
  unfold scanIfBody
  have hnotif : (lit "$\x7b/if\x7d").isPrefixOf
      ('$' :: (lit "\x7b#else\x7d" ++ (B ++ lit "$\x7b/if\x7d" ++ tail))) = false := by
    rw [show '$' :: (lit "\x7b#else\x7d" ++ (B ++ lit "$\x7b/if\x7d" ++ tail)) =
        lit "$\x7b#else\x7d" ++ (B ++ lit "$\x7b/if\x7d" ++ tail) from rfl]
    rw [isPrefixOf_append_of_le (by decide)]
    decide
  have helse : (lit "$\x7b#else\x7d").isPrefixOf
      ('$' :: (lit "\x7b#else\x7d" ++ (B ++ lit "$\x7b/if\x7d" ++ tail))) = true := by
    rw [show '$' :: (lit "\x7b#else\x7d" ++ (B ++ lit "$\x7b/if\x7d" ++ tail)) =
        lit "$\x7b#else\x7d" ++ (B ++ lit "$\x7b/if\x7d" ++ tail) from rfl]
    exact isPrefixOf_append_self _ _
  rw [if_neg (by rw [hnotif]; decide), if_pos (by rw [helse])]
  have hdrop8 : ('$' :: (lit "\x7b#else\x7d" ++ (B ++ lit "$\x7b/if\x7d" ++ tail))).drop 8 =
      B ++ lit "$\x7b/if\x7d" ++ tail := rfl
  rw [hdrop8]
  have hsp : splitFirst (lit "$\x7b/if\x7d") (B ++ lit "$\x7b/if\x7d" ++ tail) =
      some (B, tail) := by
    have hmain := @splitFirst_first (lit "$\x7b/if\x7d") (by decide)
      B.length (B ++ lit "$\x7b/if\x7d" ++ tail)
      (fun i hi => hB i hi)
      (by
        rw [List.append_assoc, List.drop_left]
        exact isPrefixOf_append_self _ _)
    rw [hmain]
    congr 2
    · rw [List.append_assoc, List.take_left]
    · rw [List.append_assoc, ← List.drop_drop, List.drop_left, List.drop_left]
  rw [hsp]

theorem scanIf_nil_eq (repl : Str → Str → Str → Str) : scanIf repl [] = [] := by
  rw [scanIf]

/-- Models the full `#if … #else … /if` match on a template that is exactly
one conditional block. -/
theorem ifMatchAt_single (c A B : Str)
    (hc0 : c ≠ []) (hcbr : '\x7d' ∉ c)
    (hchead : ∀ x, c.head? = some x → isWs x = false)
    (hA : ∀ i < A.length,
      (lit "$\x7b/if\x7d").isPrefixOf
        ((A ++ (lit "$\x7b#else\x7d" ++ (B ++ lit "$\x7b/if\x7d"))).drop i) = false ∧
      (lit "$\x7b#else\x7d").isPrefixOf
        ((A ++ (lit "$\x7b#else\x7d" ++ (B ++ lit "$\x7b/if\x7d"))).drop i) = false)
    (hB : ∀ i < B.length,
      (lit "$\x7b/if\x7d").isPrefixOf ((B ++ lit "$\x7b/if\x7d").drop i) = false) :
    ifMatchAt ('$' :: (lit "\x7b#if " ++
        (c ++ '\x7d' :: (A ++ (lit "$\x7b#else\x7d" ++ (B ++ lit "$\x7b/if\x7d")))))) =
      some (c, A, some B, []) := by
  have hlen : 0 < c.length := List.length_pos.mpr hc0
  have hctw : c.takeWhile isWs = [] := by
    cases c with
    | nil => rfl
    | cons x xs =>
      have hx := hchead x rfl
      simp [List.takeWhile_cons, hx]
  unfold ifMatchAt
  rw [if_pos (by
    rw [show ('$' :: (lit "\x7b#if " ++
        (c ++ '\x7d' :: (A ++ (lit "$\x7b#else\x7d" ++ (B ++ lit "$\x7b/if\x7d")))))) =
      lit "$\x7b#if" ++ (' ' :: (c ++ '\x7d' ::
        (A ++ (lit "$\x7b#else\x7d" ++ (B ++ lit "$\x7b/if\x7d"))))) from rfl]
    exact isPrefixOf_append_self _ _)]
  rw [show ('$' :: (lit "\x7b#if " ++
      (c ++ '\x7d' :: (A ++ (lit "$\x7b#else\x7d" ++ (B ++ lit "$\x7b/if\x7d")))))).drop 5 =
    ' ' :: (c ++ '\x7d' :: (A ++ (lit "$\x7b#else\x7d" ++ (B ++ lit "$\x7b/if\x7d"))))
    from rfl]
  have hsp : splitFirstChar '\x7d'
      (' ' :: (c ++ '\x7d' :: (A ++ (lit "$\x7b#else\x7d" ++ (B ++ lit "$\x7b/if\x7d"))))) =
      some (' ' :: c, A ++ (lit "$\x7b#else\x7d" ++ (B ++ lit "$\x7b/if\x7d"))) := by
    have h1 : '\x7d' ∉ (' ' :: c) := by
      intro hm
      rcases List.mem_cons.mp hm with h | h
      · exact absurd h (by decide)
      · exact hcbr h
    have := splitFirstChar_append h1
      (A ++ (lit "$\x7b#else\x7d" ++ (B ++ lit "$\x7b/if\x7d")))
    simpa using this
  have hbody : scanIfBody (A ++ (lit "$\x7b#else\x7d" ++ (B ++ lit "$\x7b/if\x7d"))) =
      some (A, some B, []) := by
    rw [scanIfBody_append hA]
    have he : scanIfBody (lit "$\x7b#else\x7d" ++ (B ++ lit "$\x7b/if\x7d")) =
        some ([], some B, []) := by
      have := scanIfBody_else B []
        (fun i hi => by
          have h := hB i hi
          simp only [List.append_nil]
          rw [h]
          exact Bool.false_ne_true)
      simpa using this
    rw [he]
    simp
  unfold ifMatchAfter
  rw [hsp]
  dsimp only
  rw [if_pos (by
    refine ⟨?_, ?_⟩
    · show isWs ' ' = true
      decide
    · simp only [List.length_cons]
      omega)]
  rw [hbody]
  dsimp only
  have htw : ((' ' :: c).takeWhile isWs).length = 1 := by
    rw [List.takeWhile_cons, if_pos (by decide)]
    simp [hctw]
  have hmin : min ((' ' :: c).takeWhile isWs).length ((' ' :: c).length - 1) = 1 := by
    rw [htw]
    simp only [List.length_cons]
    omega
  rw [hmin]
  rfl

/-- Models the global condition pass on a template that is exactly one
`#if … #else … /if` block. -/
theorem scanIf_single (repl : Str → Str → Str → Str) (c A B : Str)
    (hc0 : c ≠ []) (hcbr : '\x7d' ∉ c)
    (hchead : ∀ x, c.head? = some x → isWs x = false)
    (hA : ∀ i < A.length,
      (lit "$\x7b/if\x7d").isPrefixOf
        ((A ++ (lit "$\x7b#else\x7d" ++ (B ++ lit "$\x7b/if\x7d"))).drop i) = false ∧
      (lit "$\x7b#else\x7d").isPrefixOf
        ((A ++ (lit "$\x7b#else\x7d" ++ (B ++ lit "$\x7b/if\x7d"))).drop i) = false)
    (hB : ∀ i < B.length,
      (lit "$\x7b/if\x7d").isPrefixOf ((B ++ lit "$\x7b/if\x7d").drop i) = false) :
    scanIf repl ('$' :: (lit "\x7b#if " ++
        (c ++ '\x7d' :: (A ++ (lit "$\x7b#else\x7d" ++ (B ++ lit "$\x7b/if\x7d")))))) =
      repl c A B := by
  have hm := ifMatchAt_single c A B hc0 hcbr hchead hA hB
  rw [scanIf]
  split
  · rename_i cond i e rest heq
    rw [hm] at heq
    simp only [Option.some.injEq, Prod.mk.injEq] at heq
    obtain ⟨h1, h2, h3, h4⟩ := heq
    subst h1
    subst h2
    subst h3
    subst h4
    rw [scanIf_nil_eq]
    simp
  · rename_i heq
    rw [hm] at heq
    cases heq

/-! ## From dotted identifier paths to the evaluator -/

theorem identSeg_no_dot {s : Str} (h : identSeg s = true) : '.' ∉ s := by
  unfold identSeg at h
  simp only [Bool.and_eq_true] at h
  obtain ⟨⟨hshape, -⟩, -⟩ := h
  cases s with
  | nil => cases hshape
  | cons a t =>
    simp only [Bool.and_eq_true] at hshape
    obtain ⟨ha, ht⟩ := hshape
    intro hmem
    rcases List.mem_cons.mp hmem with h | h
    · subst h
      exact absurd ha (by decide)
    · have := (List.all_eq_true.mp ht) '.' h
      exact absurd this (by decide)

/-- A dotted path of identifier segments never starts with the literal
`this.` (the first segment is not the reserved word and contains no dot). -/
theorem identSeg_not_this_prefixed {segs : List Str} (hsegs : segs ≠ [])
    (hid : ∀ s ∈ segs, identSeg s = true) :
    (lit "this.").isPrefixOf (joinSep ['.'] segs) = false := by
  cases hpre : (lit "this.").isPrefixOf (joinSep ['.'] segs)
  · rfl
  · exfalso
    obtain ⟨rest, hrest⟩ := List.isPrefixOf_iff_prefix.mp hpre
    have hsplit := splitOnChar_joinSep hsegs (fun s hs => identSeg_no_dot (hid s hs))
    have h2 : splitOnChar '.' (joinSep ['.'] segs) =
        lit "this" :: splitOnChar '.' rest := by
      conv_lhs => rw [← hrest]
      rw [show lit "this." ++ rest = lit "this" ++ '.' :: rest from rfl]
      conv_lhs => rw [splitOnChar.eq_def]
      rw [splitFirstChar_append (by decide) rest]
    rw [hsplit] at h2
    cases segs with
    | nil => exact hsegs rfl
    | cons s t =>
      have hs : s = lit "this" := by
        have := congrArg List.head? h2
        simpa using this
      have := hid s (by simp)
      rw [hs] at this
      exact absurd this (by decide)

/-- Models unfolding `getNestedValue` on a truthy object and a bracket-free
path that does not start with `this.`. -/
theorem getNestedValue_path (d : Obj) {P : Str}
    (hP0 : P ≠ []) (hbr : '[' ∉ P)
    (hthis : (lit "this.").isPrefixOf P = false) :
    getNestedValue (.vObj d) P = walkKeys (splitOnChar '.' P) (.vObj d) := by
  unfold getNestedValue
  rw [if_neg (by simp [jsTruthy, hP0])]
  rw [hthis]
  simp only [Bool.false_eq_true, if_false]
  rw [normalizePath_id hbr]

/-- Models the evaluator on a dotted identifier path that resolves in the
data tree to a truthy value: the simple-property branch fires and walks
the object fields. -/
theorem evaluate_objPath (env : HostEnv) (d : Obj) {segs : List Str} {v : Val}
    (hsegs : segs ≠ []) (hid : ∀ s ∈ segs, identSeg s = true)
    (hpath : objPath segs (.vObj d) = some v) (htr : jsTruthy v = true) :
    evaluate env (joinSep ['.'] segs) (.vObj d) = v := by
  have hchars := identSeg_pathChars hid
  have hsimple := isSimplePath_joinSep hsegs hid
  have hP0 : joinSep ['.'] segs ≠ [] := by
    intro h
    rw [h] at hsimple
    simp [isSimplePath] at hsimple
  have htrim : trimStr (joinSep ['.'] segs) = joinSep ['.'] segs :=
    trimStr_id (pathChars_not_ws hchars)
  rw [evaluate_simple env _ _ hP0 (by rw [htrim]; exact hsimple)]
  rw [htrim]
  rw [getNestedValue_path d hP0 (pathChars_not_mem hchars (by decide) (by decide))
    (identSeg_not_this_prefixed hsegs hid)]
  rw [splitOnChar_joinSep hsegs (fun s hs => identSeg_no_dot (hid s hs))]
  exact walkKeys_objPath segs _ v hid hpath htr

/-! ## The merge-loop pass-count analysis -/

theorem repStr_length (u : Str) : ∀ n, (repStr u n).length = n * u.length := by
  intro n
  induction n with
  | zero => simp [repStr]
  | succ m ih =>
    show (u ++ repStr u m).length = (m + 1) * u.length
    rw [List.length_append, ih]
    ring

theorem scanRemove_nil (matchAt : Str → Option Nat)
    (hpos : ∀ s n, matchAt s = some n → 1 ≤ n) :
    scanRemove matchAt hpos [] = [] := by
  rw [scanRemove]

theorem scanRemove_append (matchAt : Str → Option Nat)
    (hpos : ∀ s n, matchAt s = some n → 1 ≤ n) :
    ∀ {u rest : Str}, (∀ i < u.length, matchAt ((u ++ rest).drop i) = none) →
      scanRemove matchAt hpos (u ++ rest) = u ++ scanRemove matchAt hpos rest := by
  intro u
  induction u with
  | nil => intro rest _; simp
  | cons c t ih =>
    intro rest hno
    have h0 : matchAt (c :: (t ++ rest)) = none := by
      have := hno 0 (by simp)
      simpa using this
    rw [show ((c :: t) ++ rest) = c :: (t ++ rest) from rfl]
    rw [scanRemove]
    split
    · rename_i n heq
      rw [h0] at heq
      cases heq
    · rw [ih (fun i hi => by
        have := hno (i + 1) (by simp; omega)
        simpa using this)]
      rfl

theorem scanRemove_id (matchAt : Str → Option Nat)
    (hpos : ∀ s n, matchAt s = some n → 1 ≤ n) {s : Str}
    (hno : ∀ i < s.length, matchAt (s.drop i) = none) :
    scanRemove matchAt hpos s = s := by
  have := @scanRemove_append matchAt hpos s []
    (fun i hi => by
      have := hno i hi
      simpa using this)
  simpa [scanRemove_nil] using this

theorem scanRemove_head (matchAt : Str → Option Nat)
    (hpos : ∀ s n, matchAt s = some n → 1 ≤ n) :
    ∀ {s : Str} {n : Nat}, matchAt s = some n →
      scanRemove matchAt hpos s = scanRemove matchAt hpos (s.drop n) := by
  intro s n h
  cases s with
  | nil => simp
  | cons c t =>
    rw [scanRemove]
    split
    · rename_i m heq
      rw [h] at heq
      simp only [Option.some.injEq] at heq
      rw [heq]
    · rename_i heq
      rw [h] at heq
      cases heq

theorem takeWhile_append_stop {p : Char → Bool} :
    ∀ {u : Str}, (u.takeWhile p).length < u.length → ∀ (v : Str),
      (u ++ v).takeWhile p = u.takeWhile p := by
  intro u
  induction u with
  | nil => intro h; simp at h
  | cons c t ih =>
    intro h v
    rw [show ((c :: t) ++ v) = c :: (t ++ v) from rfl]
    rw [List.takeWhile_cons]
    rw [List.takeWhile_cons] at h ⊢
    cases hp : p c with
    | false => simp [hp]
    | true =>
      rw [hp] at h
      simp only [if_true] at h ⊢
      have h' : (List.takeWhile p t).length < t.length := by
        simp only [List.length_cons] at h
        omega
      rw [ih h' v]

theorem isPrefixOf_append_cancel (p q s : Str) :
    (p ++ q).isPrefixOf (p ++ s) = q.isPrefixOf s := by
  induction p with
  | nil => rfl
  | cons c t ih =>
    show ((c == c) && (t ++ q).isPrefixOf (t ++ s)) = q.isPrefixOf s
    rw [ih]
    simp

theorem p1MatchAt_eq_none {s : Str} (h : mergeLit.isPrefixOf s = false) :
    p1MatchAt s = none := by
  unfold p1MatchAt
  rw [if_neg (by rw [h]; exact Bool.false_ne_true)]

theorem p2MatchAt_eq_none {s : Str}
    (h : (mergeLit ++ lit "><w:t>").isPrefixOf s = false) :
    p2MatchAt s = none := by
  unfold p2MatchAt
  rw [if_neg (by rw [h]; exact Bool.false_ne_true)]

theorem p3MatchAt_eq_none {s : Str} (h : mergeLit.isPrefixOf s = false) :
    p3MatchAt s = none := by
  unfold p3MatchAt
  rw [if_neg (by rw [h]; exact Bool.false_ne_true)]

/-- The first merge regex demands a whitespace character right after the
literal head; a non-whitespace (or absent) follow-up kills the match. -/
theorem p1MatchAt_head_not_ws {rest : Str}
    (hw : ∀ x, rest.head? = some x → isWs x = false) :
    p1MatchAt (mergeLit ++ rest) = none := by
  unfold p1MatchAt
  rw [if_pos (isPrefixOf_append_self _ _)]
  dsimp only
  rw [show (mergeLit ++ rest).drop 16 = rest from by
    rw [show (16 : Nat) = mergeLit.length from rfl, List.drop_left]]
  cases hh : rest.head? with
  | none => rfl
  | some c =>
    dsimp only
    rw [if_neg (by rw [hw c hh]; exact Bool.false_ne_true)]

/-- The third merge regex requires `><w:t` plus whitespace after the
attribute run; a following run block `</w:t></w:r><w:r…` fails at the
`><w:t` comparison. -/
theorem p3MatchAt_next_merge (rest : Str) :
    p3MatchAt (mergeLit ++ (mergeLit ++ rest)) = none := by
  unfold p3MatchAt
  rw [if_pos (isPrefixOf_append_self _ _)]
  dsimp only
  rw [show (mergeLit ++ (mergeLit ++ rest)).drop 16 = mergeLit ++ rest from by
    rw [show (16 : Nat) = mergeLit.length from rfl, List.drop_left]]
  rw [takeWhile_append_stop (by decide) rest]
  rw [show (mergeLit.takeWhile (fun x => x ≠ '>')) = lit "</w:t" from by decide]
  rw [show (mergeLit ++ rest).drop (lit "</w:t").length =
      lit "></w:r><w:r" ++ rest from by
    rw [show (lit "</w:t").length = 5 from rfl]
    rw [List.drop_append_of_le_length (by decide)]
    rfl]
  rw [if_neg (by
    rw [isPrefixOf_append_of_le (by decide)]
    decide)]

/-- The third merge regex fails on the attribute-free junction `…<w:r><w:t>`:
there is no whitespace before `xml:space`. -/
theorem p3MatchAt_next_tail (rest : Str) :
    p3MatchAt (mergeLit ++ (mergeTail ++ rest)) = none := by
  unfold p3MatchAt
  rw [if_pos (isPrefixOf_append_self _ _)]
  dsimp only
  rw [show (mergeLit ++ (mergeTail ++ rest)).drop 16 = mergeTail ++ rest from by
    rw [show (16 : Nat) = mergeLit.length from rfl, List.drop_left]]
  rw [takeWhile_append_stop (by decide) rest]
  rw [show (mergeTail.takeWhile (fun x => x ≠ '>')) = [] from by decide]
  simp only [List.length_nil, List.drop_zero]
  rw [show mergeTail ++ rest = lit "><w:t" ++ ('>' :: rest) from rfl]
  rw [if_pos (isPrefixOf_append_self _ _)]
  rw [show (lit "><w:t" ++ ('>' :: rest)).drop 5 = '>' :: rest from by
    rw [show (5 : Nat) = (lit "><w:t").length from rfl, List.drop_left]]
  rw [show (('>' :: rest).takeWhile isWs) = [] from by
    rw [List.takeWhile_cons]
    rfl]
  rw [if_neg (by
    rintro ⟨h1, -⟩
    simp at h1)]

/-- The third merge regex fails when nothing follows the literal head. -/
theorem p3MatchAt_end : p3MatchAt (mergeLit ++ ([] : Str)) = none := by decide

theorem p1MatchAt_end : p1MatchAt (mergeLit ++ ([] : Str)) = none := by decide

theorem p2MatchAt_eq_some {s : Str}
    (h : (mergeLit ++ lit "><w:t>").isPrefixOf s = true) : p2MatchAt s = some 22 := by
  unfold p2MatchAt
  rw [if_pos h]

theorem mergeLit_mid_take : ∀ i < 16, 1 ≤ i →
    mergeLit.take ((mergeLit.drop i).length) ≠ mergeLit.drop i := by decide

theorem mergeLit_mid_take2 : ∀ i < 16, 1 ≤ i →
    (mergeLit ++ lit "><w:t>").take ((mergeLit.drop i).length) ≠ mergeLit.drop i := by
  decide

theorem mergeTail_mid_take : ∀ i < 6,
    mergeLit.take ((mergeTail.drop i).length) ≠ mergeTail.drop i := by decide

theorem mergeTail_mid_take2 : ∀ i < 6,
    (mergeLit ++ lit "><w:t>").take ((mergeTail.drop i).length) ≠ mergeTail.drop i := by
  decide

/-- Every character that starts a block of the nested input is `<` or `>`,
never whitespace. -/
theorem nest_head_not_ws : ∀ (a b : Nat), ∀ x : Char,
    (repStr mergeLit a ++ repStr mergeTail b).head? = some x → isWs x = false := by
  intro a b x h
  cases a with
  | zero =>
    cases b with
    | zero => simp [repStr] at h
    | succ b' =>
      rw [show repStr mergeLit 0 ++ repStr mergeTail (b' + 1) =
          '>' :: (lit "<w:t>" ++ repStr mergeTail b') from rfl] at h
      simp only [List.head?_cons, Option.some.injEq] at h
      subst h
      decide
  | succ a' =>
    rw [show repStr mergeLit (a' + 1) ++ repStr mergeTail b =
        '<' :: ((lit "/w:t></w:r><w:r" ++ repStr mergeLit a') ++ repStr mergeTail b)
        from rfl] at h
    simp only [List.head?_cons, Option.some.injEq] at h
    subst h
    decide

theorem merge_no_p1_tail : ∀ b, scanRemove p1MatchAt p1MatchAt_pos
    (repStr mergeTail b) = repStr mergeTail b := by
  intro b
  induction b with
  | zero => exact scanRemove_nil _ _
  | succ b' ih =>
    have hno : ∀ i < mergeTail.length,
        p1MatchAt ((mergeTail ++ repStr mergeTail b').drop i) = none := by
      intro i hi
      rw [List.drop_append_of_le_length (Nat.le_of_lt hi)]
      apply p1MatchAt_eq_none
      apply Bool.eq_false_iff.mpr
      apply not_isPrefixOf_append_of_take_ne
      · rw [List.length_drop]
        exact le_trans (Nat.sub_le _ _) (by decide)
      · exact mergeTail_mid_take i hi
    rw [show repStr mergeTail (b' + 1) = mergeTail ++ repStr mergeTail b' from rfl,
      scanRemove_append _ _ hno, ih]

theorem merge_no_p1 : ∀ a b, scanRemove p1MatchAt p1MatchAt_pos
    (repStr mergeLit a ++ repStr mergeTail b) =
      repStr mergeLit a ++ repStr mergeTail b := by
  intro a
  induction a with
  | zero =>
    intro b
    simp only [repStr, List.nil_append]
    exact merge_no_p1_tail b
  | succ a' ih =>
    intro b
    have hno : ∀ i < mergeLit.length,
        p1MatchAt ((mergeLit ++ (repStr mergeLit a' ++ repStr mergeTail b)).drop i) =
          none := by
      intro i hi
      rw [List.drop_append_of_le_length (Nat.le_of_lt hi)]
      rcases Nat.eq_zero_or_pos i with hz | hpos1
      · subst hz
        simp only [List.drop_zero]
        exact p1MatchAt_head_not_ws (nest_head_not_ws a' b)
      · apply p1MatchAt_eq_none
        apply Bool.eq_false_iff.mpr
        apply not_isPrefixOf_append_of_take_ne
        · rw [List.length_drop]
          exact le_trans (Nat.sub_le _ _) (by decide)
        · exact mergeLit_mid_take i hi hpos1
    rw [show repStr mergeLit (a' + 1) ++ repStr mergeTail b =
        mergeLit ++ (repStr mergeLit a' ++ repStr mergeTail b) from by
      simp [repStr, List.append_assoc]]
    rw [scanRemove_append _ _ hno, ih b]

theorem merge_no_p3_tail : ∀ b, scanRemove p3MatchAt p3MatchAt_pos
    (repStr mergeTail b) = repStr mergeTail b := by
  intro b
  induction b with
  | zero => exact scanRemove_nil _ _
  | succ b' ih =>
    have hno : ∀ i < mergeTail.length,
        p3MatchAt ((mergeTail ++ repStr mergeTail b').drop i) = none := by
      intro i hi
      rw [List.drop_append_of_le_length (Nat.le_of_lt hi)]
      apply p3MatchAt_eq_none
      apply Bool.eq_false_iff.mpr
      apply not_isPrefixOf_append_of_take_ne
      · rw [List.length_drop]
        exact le_trans (Nat.sub_le _ _) (by decide)
      · exact mergeTail_mid_take i hi
    rw [show repStr mergeTail (b' + 1) = mergeTail ++ repStr mergeTail b' from rfl,
      scanRemove_append _ _ hno, ih]

theorem merge_no_p3 : ∀ a b, scanRemove p3MatchAt p3MatchAt_pos
    (repStr mergeLit a ++ repStr mergeTail b) =
      repStr mergeLit a ++ repStr mergeTail b := by
  intro a
  induction a with
  | zero =>
    intro b
    simp only [repStr, List.nil_append]
    exact merge_no_p3_tail b
  | succ a' ih =>
    intro b
    have hno : ∀ i < mergeLit.length,
        p3MatchAt ((mergeLit ++ (repStr mergeLit a' ++ repStr mergeTail b)).drop i) =
          none := by
      intro i hi
      rw [List.drop_append_of_le_length (Nat.le_of_lt hi)]
      rcases Nat.eq_zero_or_pos i with hz | hpos1
      · subst hz
        simp only [List.drop_zero]
        cases a' with
        | zero =>
          cases b with
          | zero =>
            rw [show repStr mergeLit 0 ++ repStr mergeTail 0 = ([] : Str) from rfl]
            exact p3MatchAt_end
          | succ b' =>
            rw [show repStr mergeLit 0 ++ repStr mergeTail (b' + 1) =
                mergeTail ++ repStr mergeTail b' from rfl]
            exact p3MatchAt_next_tail _
        | succ a'' =>
          rw [show repStr mergeLit (a'' + 1) ++ repStr mergeTail b =
              mergeLit ++ (repStr mergeLit a'' ++ repStr mergeTail b) from by
            simp [repStr, List.append_assoc]]
          exact p3MatchAt_next_merge _
      · apply p3MatchAt_eq_none
        apply Bool.eq_false_iff.mpr
        apply not_isPrefixOf_append_of_take_ne
        · rw [List.length_drop]
          exact le_trans (Nat.sub_le _ _) (by decide)
        · exact mergeLit_mid_take i hi hpos1
    rw [show repStr mergeLit (a' + 1) ++ repStr mergeTail b =
        mergeLit ++ (repStr mergeLit a' ++ repStr mergeTail b) from by
      simp [repStr, List.append_assoc]]
    rw [scanRemove_append _ _ hno, ih b]

theorem merge_p2_tail : ∀ b, scanRemove p2MatchAt p2MatchAt_pos
    (repStr mergeTail b) = repStr mergeTail b := by
  intro b
  induction b with
  | zero => exact scanRemove_nil _ _
  | succ b' ih =>
    have hno : ∀ i < mergeTail.length,
        p2MatchAt ((mergeTail ++ repStr mergeTail b').drop i) = none := by
      intro i hi
      rw [List.drop_append_of_le_length (Nat.le_of_lt hi)]
      apply p2MatchAt_eq_none
      apply Bool.eq_false_iff.mpr
      apply not_isPrefixOf_append_of_take_ne
      · rw [List.length_drop]
        exact le_trans (Nat.sub_le _ _) (by decide)
      · exact mergeTail_mid_take2 i hi
    rw [show repStr mergeTail (b' + 1) = mergeTail ++ repStr mergeTail b' from rfl,
      scanRemove_append _ _ hno, ih]

/-- One global pass of the attribute-free merge replace on the nested
input: exactly the pair at the junction is removed. -/
theorem merge_p2_main : ∀ k j, scanRemove p2MatchAt p2MatchAt_pos
    (repStr mergeLit (k + 1) ++ repStr mergeTail (j + 1)) =
      repStr mergeLit k ++ repStr mergeTail j := by
  intro k
  induction k with
  | zero =>
    intro j
    rw [show repStr mergeLit 1 ++ repStr mergeTail (j + 1) =
        (mergeLit ++ lit "><w:t>") ++ repStr mergeTail j from by
      simp [repStr, mergeTail, List.append_assoc]]
    rw [scanRemove_head _ _ (p2MatchAt_eq_some (isPrefixOf_append_self _ _))]
    rw [show ((mergeLit ++ lit "><w:t>") ++ repStr mergeTail j).drop 22 =
        repStr mergeTail j from by
      rw [show (22 : Nat) = (mergeLit ++ lit "><w:t>").length from rfl, List.drop_left]]
    rw [merge_p2_tail j]
    simp [repStr]
  | succ k' ih =>
    intro j
    have hno : ∀ i < mergeLit.length,
        p2MatchAt ((mergeLit ++
          (repStr mergeLit (k' + 1) ++ repStr mergeTail (j + 1))).drop i) = none := by
      intro i hi
      rw [List.drop_append_of_le_length (Nat.le_of_lt hi)]
      rcases Nat.eq_zero_or_pos i with hz | hpos1
      · subst hz
        simp only [List.drop_zero]
        apply p2MatchAt_eq_none
        rw [show repStr mergeLit (k' + 1) ++ repStr mergeTail (j + 1) =
            mergeLit ++ (repStr mergeLit k' ++ repStr mergeTail (j + 1)) from by
          simp [repStr, List.append_assoc]]
        rw [isPrefixOf_append_cancel]
        rw [isPrefixOf_append_of_le (by decide)]
        decide
      · apply p2MatchAt_eq_none
        apply Bool.eq_false_iff.mpr
        apply not_isPrefixOf_append_of_take_ne
        · rw [List.length_drop]
          exact le_trans (Nat.sub_le _ _) (by decide)
        · exact mergeLit_mid_take2 i hi hpos1
    rw [show repStr mergeLit (k' + 1 + 1) ++ repStr mergeTail (j + 1) =
        mergeLit ++ (repStr mergeLit (k' + 1) ++ repStr mergeTail (j + 1)) from by
      simp [repStr, List.append_assoc]]
    rw [scanRemove_append _ _ hno, ih j]
    simp [repStr, List.append_assoc]

/-- One full pass of the merge loop body on the nested input removes
exactly one balanced pair. -/
theorem mergeStep_nest (k j : Nat) :
    mergeStep (repStr mergeLit (k + 1) ++ repStr mergeTail (j + 1)) =
      repStr mergeLit k ++ repStr mergeTail j := by
  unfold mergeStep
  rw [merge_no_p1 (k + 1) (j + 1), merge_p2_main k j, merge_no_p3 k j]

theorem mergeStep_nestP2_succ (m : Nat) : mergeStep (nestP2 (m + 1)) = nestP2 m := by
  unfold nestP2
  exact mergeStep_nest (m + 1) (m + 1)

theorem mergeStep_nestP2_zero : mergeStep (nestP2 0) = [] := by
  unfold nestP2
  rw [mergeStep_nest 0 0]
  rfl

theorem nestP2_length (m : Nat) : (nestP2 m).length = (m + 1) * 22 := by
  unfold nestP2
  rw [List.length_append, repStr_length, repStr_length]
  simp only [show mergeLit.length = 16 from rfl, show mergeTail.length = 6 from rfl]
  ring

/-- The `do … while` loop on the nested input executes one pass per
nesting level plus the final pass that trips the counter guard. -/
theorem mergeAux_nestP2 : ∀ d j, j + d = 20 → (mergeAux (nestP2 d) j).2 = 21 := by
  intro d
  induction d with
  | zero =>
    intro j hj
    have hj20 : j = 20 := by omega
    subst hj20
    rw [mergeAux]
    simp only [mergeStep_nestP2_zero]
    rw [if_pos (by omega)]
  | succ d' ih =>
    intro j hj
    rw [mergeAux]
    simp only [mergeStep_nestP2_succ]
    rw [if_neg (by omega)]
    rw [if_pos (by
      rw [nestP2_length, nestP2_length]
      omega)]
    exact ih (j + 1) (by omega)

/-- The loop counter never exceeds 21, whatever the input text. -/
theorem mergeAux_le : ∀ (d j : Nat) (xml : Str), 20 - j ≤ d → j ≤ 20 →
    (mergeAux xml j).2 ≤ 21 := by
  intro d
  induction d with
  | zero =>
    intro j xml hd hj
    have hj20 : j = 20 := by omega
    subst hj20
    rw [mergeAux]
    rw [if_pos (by omega)]
  | succ d' ih =>
    intro j xml hd hj
    rw [mergeAux]
    by_cases h1 : 20 < j + 1
    · rw [if_pos h1]
      show j + 1 ≤ 21
      omega
    · rw [if_neg h1]
      by_cases h2 : (mergeStep xml).length < xml.length
      · rw [if_pos h2]
        exact ih (j + 1) (mergeStep xml) (by omega) (by omega)
      · rw [if_neg h2]
        show j + 1 ≤ 21
        omega

/-- When one pass already reaches a fixed point, the loop stops after
that single pass. -/
theorem mergeLoop_fix {xml : Str} (h : mergeStep xml = xml) :
    mergeLoop xml = (xml, 1) := by
  unfold mergeLoop
  rw [mergeAux]
  rw [if_neg (by omega)]
  rw [h]
  rw [if_neg (by omega)]

/-! ## Batch generation: indices and ordering -/

theorem gmdAux_length (gen : Obj → Except String Str) :
    ∀ (l : List Obj) (i0 : Nat), (gmdAux gen l i0).length = l.length := by
  intro l
  induction l with
  | nil => intro i0; rfl
  | cons d t ih =>
    intro i0
    simp only [gmdAux, List.length_cons, ih]

theorem gmdAux_get (gen : Obj → Except String Str) :
    ∀ (l : List Obj) (i0 k : Nat),
      (gmdAux gen l i0).get? k =
        (l.get? k).map (fun d => batchItemOf (i0 + k) (gen d)) := by
  intro l
  induction l with
  | nil => intro i0 k; simp [gmdAux]
  | cons d t ih =>
    intro i0 k
    cases k with
    | zero => simp [gmdAux]
    | succ k' =>
      simp only [gmdAux, List.get?_cons_succ, ih (i0 + 1) k']
      have : i0 + 1 + k' = i0 + (k' + 1) := by omega
      rw [this]

theorem batchAux_length (gen : Obj → Except String Str) (bs : Nat) (hbs : 1 ≤ bs) :
    ∀ (n : Nat) (l : List Obj), l.length ≤ n →
      (batchAux gen bs hbs l).length = l.length := by
  intro n
  induction n with
  | zero =>
    intro l hl
    have : l = [] := List.eq_nil_of_length_eq_zero (by omega)
    subst this
    simp [batchAux]
  | succ n' ih =>
    intro l hl
    cases l with
    | nil => simp [batchAux]
    | cons d t =>
      rw [batchAux]
      rw [List.length_append]
      unfold generateMultipleDocuments
      rw [gmdAux_length]
      rw [ih ((d :: t).drop bs) (by
        simp only [List.length_drop, List.length_cons] at *
        omega)]
      simp only [List.length_take, List.length_drop, List.length_cons]
      omega

theorem batchAux_get (gen : Obj → Except String Str) (bs : Nat) (hbs : 1 ≤ bs) :
    ∀ (n : Nat) (l : List Obj), l.length ≤ n → ∀ (k : Nat),
      (batchAux gen bs hbs l).get? k =
        (l.get? k).map (fun d => batchItemOf (k % bs) (gen d)) := by
  intro n
  induction n with
  | zero =>
    intro l hl k
    have : l = [] := List.eq_nil_of_length_eq_zero (by omega)
    subst this
    simp [batchAux]
  | succ n' ih =>
    intro l hl k
    cases l with
    | nil => simp [batchAux]
    | cons d t =>
      rw [batchAux]
      have hgl : (generateMultipleDocuments gen ((d :: t).take bs)).length =
          ((d :: t).take bs).length := by
        unfold generateMultipleDocuments
        rw [gmdAux_length]
      by_cases hk : k < ((d :: t).take bs).length
      · rw [List.get?_append (by rw [hgl]; exact hk)]
        unfold generateMultipleDocuments
        rw [gmdAux_get]
        have hkbs : k < bs := by
          simp only [List.length_take] at hk
          omega
        rw [List.get?_take hkbs]
        rw [Nat.mod_eq_of_lt hkbs]
        simp
      · rw [List.get?_append_right (by rw [hgl]; omega)]
        rw [hgl]
        have htake : ((d :: t).take bs).length = min bs (t.length + 1) := by
          simp [List.length_take]
        by_cases hbig : bs < t.length + 1
        · have htbs : ((d :: t).take bs).length = bs := by omega
          rw [htbs]
          have hkbs : bs ≤ k := by omega
          rw [ih ((d :: t).drop bs) (by
            simp only [List.length_drop, List.length_cons] at *
            omega) (k - bs)]
          rw [List.get?_drop]
          have h1 : bs + (k - bs) = k := by omega
          rw [h1]
          have h2 : (k - bs) % bs = k % bs := (Nat.mod_eq_sub_mod hkbs).symm
          rw [h2]
        · have hdrop : (d :: t).drop bs = [] := by
            apply List.drop_eq_nil_of_le
            simp only [List.length_cons]
            omega
          rw [hdrop]
          have htbs : ((d :: t).take bs).length = t.length + 1 := by omega
          rw [htbs]
          have hout : (d :: t).get? k = none := by
            apply List.get?_eq_none.mpr
            simp only [List.length_cons]
            omega
          rw [hout]
          simp [batchAux]

/-! ## Row-cleanup characterisation -/

theorem trimStr_eq_nil_iff {s : Str} : trimStr s = [] ↔ ∀ c ∈ s, isWs c = true := by
  unfold trimStr
  constructor
  · intro h c hc
    rw [List.reverse_eq_nil_iff] at h
    rw [List.dropWhile_eq_nil_iff] at h
    have hsplit : s.takeWhile isWs ++ s.dropWhile isWs = s :=
      List.takeWhile_append_dropWhile isWs s
    rw [← hsplit] at hc
    rcases List.mem_append.mp hc with h1 | h2
    · exact List.mem_takeWhile_imp h1
    · exact h c (List.mem_reverse.mpr h2)
  · intro h
    have : s.dropWhile isWs = [] := List.dropWhile_eq_nil_iff.mpr (fun x hx => h x hx)
    rw [this]
    rfl

theorem mem_rowText {r : TRow} {c : Char} :
    c ∈ rowText r ↔ ∃ l ∈ r.leaves, c ∈ l := by
  unfold rowText
  induction r.leaves with
  | nil => simp
  | cons x t ih => simp [List.mem_append, ih]

/-- The removal test fires exactly on rows that have at least one text
leaf and whose concatenated text is whitespace-only. -/
theorem rowRemoved_iff (r : TRow) :
    rowRemoved r = true ↔ r.leaves ≠ [] ∧ trimStr (rowText r) = [] := by
  unfold rowRemoved
  rw [Bool.and_eq_true, Bool.not_eq_true', List.isEmpty_eq_false_iff_exists_mem]
  constructor
  · rintro ⟨⟨x, hx⟩, hall⟩
    refine ⟨(by intro h; rw [h] at hx; cases hx), ?_⟩
    rw [trimStr_eq_nil_iff]
    intro c hc
    obtain ⟨l, hl, hcl⟩ := mem_rowText.mp hc
    have := (List.all_eq_true.mp hall) l hl
    rw [List.isEmpty_iff] at this
    have := trimStr_eq_nil_iff.mp this c hcl
    exact this
  · rintro ⟨hne, htrim⟩
    rw [trimStr_eq_nil_iff] at htrim
    constructor
    · cases hl : r.leaves with
      | nil => exact absurd hl hne
      | cons x t => exact ⟨x, by simp⟩
    · rw [List.all_eq_true]
      intro l hl
      rw [List.isEmpty_iff, trimStr_eq_nil_iff]
      intro c hc
      exact htrim c (mem_rowText.mpr ⟨l, hl, hc⟩)

/-! ## Heap preservation through the render pipeline -/

theorem hget_halloc {h : Heap} {o : Obj} {r : Nat} (hr : r < h.length) :
    hget (halloc h o).1 r = hget h r := by
  unfold halloc hget
  dsimp only
  rw [List.get?_append hr]

theorem hget_hset_ne {h : Heap} {p : Nat} {k : String} {v : Val} {r : Nat}
    (hne : p ≠ r) : hget (hset h p k v) r = hget h r := by
  unfold hset hget
  rw [List.get?_set_ne _ _ hne]

theorem hget_loopCtxsH : ∀ (items : List Val) (h : Heap) (dref n idx r : Nat),
    r < h.length → hget (loopCtxsH h dref items n idx).1 r = hget h r := by
  intro items
  induction items with
  | nil => intro h dref n idx r _; rfl
  | cons item rest ih =>
    intro h dref n idx r hr
    have hstep : (loopCtxsH h dref (item :: rest) n idx).1 =
        (loopCtxsH (mkLoopCtxH h dref item idx n).1 dref rest n (idx + 1)).1 := rfl
    rw [hstep]
    have hlen : r < (mkLoopCtxH h dref item idx n).1.length := by
      unfold mkLoopCtxH halloc
      simp only [List.length_append]
      omega
    rw [ih _ dref n (idx + 1) r hlen]
    exact hget_halloc hr

theorem hget_preprocessDataH {h : Heap} {dref r : Nat} {meta helpers : Val}
    (hr : r < h.length) :
    hget (preprocessDataH h dref meta helpers).1 r = hget h r := by
  unfold preprocessDataH
  dsimp only
  rw [hget_hset_ne (by unfold halloc; dsimp only; omega)]
  rw [hget_hset_ne (by unfold halloc; dsimp only; omega)]
  exact hget_halloc hr

theorem preprocessDataH_fst_length {h : Heap} {dref : Nat} {meta helpers : Val} :
    h.length ≤ (preprocessDataH h dref meta helpers).1.length := by
  unfold preprocessDataH hset halloc
  dsimp only
  simp only [List.length_set, List.length_append, List.length_cons, List.length_nil]
  omega

/-- The full pipeline never changes the object the caller's reference
points to: the clone and the per-iteration contexts are fresh. -/
theorem hget_renderPipelineH {h : Heap} {dref r : Nat} {meta helpers : Val}
    {items : List Val} (hr : r < h.length) :
    hget (renderPipelineH h dref meta helpers items) r = hget h r := by
  unfold renderPipelineH
  dsimp only
  rw [hget_loopCtxsH items _ _ _ _ r (lt_of_lt_of_le hr preprocessDataH_fst_length)]
  exact hget_preprocessDataH hr

/-! ## Formatter pipeline on a single formatter -/

theorem applyFormatters_single (env : HostEnv) (v : Val) (name : Str) (r : Val)
    (hcol : ':' ∉ name) (htrim : trimStr name = name)
    (hrun : runFormatter env name v [] = some (.plain r)) :
    applyFormatters env v [name] = r := by
  unfold applyFormatters
  simp only [List.foldl_cons, List.foldl_nil]
  rw [splitOnChar_single hcol]
  simp only [List.headD_cons, List.drop_succ_cons, List.drop_nil, List.map_nil]
  rw [htrim, hrun]
  simp

theorem runFormatter_percent (env : HostEnv) (v : Val) :
    runFormatter env (lit "percent") v [] =
      some (.plain (.vStr (toFixed (numOr0 v * 100) 2 ++ ['%']))) := by
  unfold runFormatter
  rw [if_neg (by decide), if_neg (by decide), if_neg (by decide), if_neg (by decide),
    if_neg (by decide), if_neg (by decide), if_pos rfl]

theorem runFormatter_number (env : HostEnv) (v : Val) :
    runFormatter env (lit "number") v [] =
      some (.plain (.vStr (toFixed (numOr0 v) 2))) := by
  unfold runFormatter
  rw [if_neg (by decide), if_neg (by decide), if_neg (by decide), if_neg (by decide),
    if_neg (by decide), if_pos rfl]
  rfl

theorem runFormatter_round (env : HostEnv) (v : Val) :
    runFormatter env (lit "round") v [] =
      some (.plain (.vNum (jsDiv (jsRound (jsMul (.num (numOr0 v)) (.num 1)))
        (.num 1)))) := by
  unfold runFormatter
  rw [if_neg (by decide), if_neg (by decide), if_neg (by decide), if_neg (by decide),
    if_neg (by decide), if_neg (by decide), if_neg (by decide), if_pos rfl]
  rfl

theorem runFormatter_currency (env : HostEnv) (v : Val) :
    runFormatter env (lit "currency") v [] =
      some (.plain (.vStr (env.intl "en-US" "USD" (numOr0 v)))) := by
  unfold runFormatter
  rw [if_neg (by decide), if_neg (by decide), if_neg (by decide), if_neg (by decide),
    if_pos rfl]
  rfl

theorem toFixed_zero_two : toFixed 0 2 = lit "0.00" := by
  unfold toFixed
  have hf : ⌊(0 * 10 ^ 2 + 1/2 : ℚ)⌋ = 0 := by
    rw [Int.floor_eq_zero_iff]
    constructor <;> norm_num
  rw [hf]
  decide

theorem round_zero_num :
    jsDiv (jsRound (jsMul (.num 0) (.num 1))) (.num 1) = .num 0 := by
  unfold jsMul jsRound jsDiv
  dsimp only
  have hf : ⌊(0 * 1 + 1/2 : ℚ)⌋ = 0 := by
    rw [Int.floor_eq_zero_iff]
    constructor <;> norm_num
  rw [hf]
  rw [if_neg (by norm_num : ¬ (1 : ℚ) = 0)]
  norm_num

/-! ## The claims -/

/-- C1 (amended): every nonempty expression that is not a simple property
path is handed to the host `Function` constructor — the evaluator records
at least one host call, and no `BadExpression` failure or `[ERROR: …]`
marker exists in the evaluator. -/
theorem C1_host_eval_amended (env : HostEnv) (expr : Str) (data : Val)
    (h0 : expr ≠ []) (hs : isSimplePath (trimStr expr) = false) :
    (evaluateT env expr data).2 ≠ [] := by
  unfold evaluateT
  rw [if_neg h0, if_neg (by rw [hs]; exact Bool.false_ne_true)]
  unfold evaluateComplexExpressionT
  dsimp only
  unfold safeEvaluateT
  simp

theorem C1_host_eval_amended_witness :
    (evaluateT hostFail (lit "1+1") (.vObj [])).2 ≠ [] :=
  C1_host_eval_amended hostFail (lit "1+1") (.vObj []) (by decide) (by decide)

unseal splitOnChar normalizePath varMatches boundaryReplaceAll scanDirs in
/-- C1 (counterexample): the directive expression `({}).toString()` — the
spec's own host-escape example — is handed to the host interpreter (the
call log is nonempty, holding the boundary-substituted text), and the
rendered output of the directive carries no `[ERROR` marker. -/
theorem C1_host_escape_counterexample :
    (evaluateT hostFail (lit " (\x7b\x7d).toString() ") (.vObj [])).2 =
      [lit " (\x7b\x7d).null() "] ∧
    containsSub (processRemainingVariables hostFail (.vObj [])
      (lit "$\x7b (\x7b\x7d).toString() \x7d")) (lit "[ERROR") = false :=
  ⟨rfl, by decide⟩

/-- C2 (amended): batch generation returns one result per dataset in input
order, each slot tagged by its own generation outcome, but the `index`
field restarts at `0` inside every batch: the `k`-th result carries
`k % batchSize` (with the default batch size `10` when the option is
absent), not `k`. -/
theorem C2_batch_index_amended (gen : Obj → Except String Str) (bsOpt : Nat)
    (l : List Obj) :
    (batchGenerate gen bsOpt l).length = l.length ∧
    ∀ k : Nat, (batchGenerate gen bsOpt l).get? k =
      (l.get? k).map
        (fun d => batchItemOf (k % (if bsOpt = 0 then 10 else bsOpt)) (gen d)) := by
  unfold batchGenerate
  by_cases h : bsOpt = 0
  · rw [dif_pos h, if_pos h]
    exact ⟨batchAux_length gen 10 (by omega) l.length l (le_refl _),
      fun k => batchAux_get gen 10 (by omega) l.length l (le_refl _) k⟩
  · rw [dif_neg h, if_neg h]
    exact ⟨batchAux_length gen bsOpt (by omega) l.length l (le_refl _),
      fun k => batchAux_get gen bsOpt (by omega) l.length l (le_refl _) k⟩

unseal batchAux in
/-- C2 (counterexample): three datasets with batch size 2 produce indices
`[0, 1, 0]` — the third result is labelled `0`, not its input position
`2`. -/
theorem C2_batch_index_counterexample :
    (batchGenerate (fun _ => .ok []) 2 [[], [], []]).map BatchItem.index = [0, 1, 0] ∧
    [0, 1, 0] ≠ [0, 1, (2 : Nat)] :=
  ⟨by decide, by decide⟩

/-- C3 (amended): a flat `${#each L}body${/each}` over a resolved list
renders one copy of the newline-trimmed body per element and joins the
copies with a newline character — `join('\n')`, not plain
concatenation. -/
theorem C3_loop_separator_amended (env : HostEnv) (data : Val) (L body : Str)
    (items : List Val)
    (hL0 : L ≠ [])
    (hLbr : '\x7d' ∉ L)
    (hLws : ∀ c ∈ L, isWs c = false)
    (hcl : ∀ i < body.length, eachClose.isPrefixOf ((body ++ eachClose).drop i) = false)
    (hop : ∀ i < body.length, eachOpen.isPrefixOf ((body ++ eachClose).drop i) = false)
    (hev : evaluate env L data = .vArr items) :
    processLoops env data (eachOpen ++ (L ++ '\x7d' :: (body ++ eachClose))) =
      joinSep ['\n'] (renderItems env data (trimNl body) items items.length 0) :=
  processLoops_each_spec env data L body items hL0 hLbr hLws hcl hop hev

unseal splitOnChar normalizePath in
theorem C3_loop_separator_amended_witness :
    processLoops hostFail (.vObj [("L", .vArr [.vNum (.num 1), .vNum (.num 2)])])
        (eachOpen ++ (lit "L" ++ '\x7d' :: (lit "a" ++ eachClose))) =
      joinSep ['\n'] (renderItems hostFail
        (.vObj [("L", .vArr [.vNum (.num 1), .vNum (.num 2)])])
        (trimNl (lit "a")) [.vNum (.num 1), .vNum (.num 2)] 2 0) :=
  C3_loop_separator_amended hostFail (.vObj [("L", .vArr [.vNum (.num 1), .vNum (.num 2)])])
    (lit "L") (lit "a") [.vNum (.num 1), .vNum (.num 2)]
    (by decide) (by decide) (by decide) (by decide) (by decide) rfl

unseal splitOnChar normalizePath varMatches boundaryReplaceAll scanDirs scanIf
  thisReplScan findCloseIdx processLoopsGo renderItems in
/-- C3 (counterexample): the loop over a two-element list renders `a\na` —
a newline stands between the iterations, not the empty string. -/
theorem C3_loop_separator_counterexample :
    processLoops hostFail (.vObj [("L", .vArr [.vNum (.num 1), .vNum (.num 2)])])
      (lit "$\x7b#each L\x7da$\x7b/each\x7d") = lit "a\na" ∧
    lit "a\na" ≠ lit "aa" :=
  ⟨rfl, by decide⟩

/-- C4 (amended): for a dotted identifier path that resolves in the data
object to a truthy, non-styled value, the interpolation `${P}` emits
exactly the XML-escaped textual value; the falsy values `0`, `false` and
`""` are excluded because `String(value || '')` collapses them to the
empty string. -/
theorem C4_interpolation_amended (env : HostEnv) (d : Obj) (segs : List Str) (v : Val)
    (hsegs : segs ≠ []) (hid : ∀ s ∈ segs, identSeg s = true)
    (hpath : objPath segs (.vObj d) = some v) (htr : jsTruthy v = true)
    (hfmt : isFormattingObj v = false) :
    processRemainingVariables env (.vObj d)
        ('$' :: '\x7b' :: (joinSep ['.'] segs ++ ['\x7d'])) =
      escapeXml (jsToStr v) := by
  have hchars := identSeg_pathChars hid
  have hsimple := isSimplePath_joinSep hsegs hid
  have hthis := identSeg_not_this_prefixed hsegs hid
  have heval := evaluate_objPath env d hsegs hid hpath htr
  rw [prv_single env d _ hchars hsimple hthis (by rw [heval]; exact hfmt)]
  rw [heval]
  unfold jsOr
  rw [htr]
  rfl

unseal splitOnChar normalizePath scanDirs in
theorem C4_interpolation_amended_witness :
    processRemainingVariables hostFail (.vObj [("x", .vStr (lit "hi"))])
        ('$' :: '\x7b' :: (joinSep ['.'] [lit "x"] ++ ['\x7d'])) =
      escapeXml (jsToStr (.vStr (lit "hi"))) :=
  C4_interpolation_amended hostFail [("x", .vStr (lit "hi"))] [lit "x"]
    (.vStr (lit "hi")) (by decide) (by decide) rfl (by decide) (by decide)

unseal splitOnChar normalizePath scanDirs in
/-- C4 (counterexample): the path `x` is present with value `false`, whose
textual value is `false`, yet `${x}` renders the empty string — the
`value || ''` default swallows falsy values. -/
theorem C4_interpolation_counterexample :
    processRemainingVariables hostFail (.vObj [("x", .vBool false)])
      (lit "$\x7bx\x7d") = [] ∧
    escapeXml (jsToStr (.vBool false)) = lit "false" ∧
    ([] : Str) ≠ lit "false" :=
  ⟨rfl, by decide, by decide⟩

/-- C5 (amended): when the condition of an `#if … #else … /if` block
evaluates to a non-truthy result — in particular when its evaluation
fails and the evaluator falls back to `null` — the block renders the
else-branch content unchanged; no `[ERROR: …]` marker is produced
anywhere in this path. -/
theorem C5_if_failure_amended (env : HostEnv) (data : Val) (c A B : Str)
    (hc0 : c ≠ []) (hcbr : '\x7d' ∉ c)
    (hchead : ∀ x, c.head? = some x → isWs x = false)
    (hA : ∀ i < A.length,
      (lit "$\x7b/if\x7d").isPrefixOf
        ((A ++ (lit "$\x7b#else\x7d" ++ (B ++ lit "$\x7b/if\x7d"))).drop i) = false ∧
      (lit "$\x7b#else\x7d").isPrefixOf
        ((A ++ (lit "$\x7b#else\x7d" ++ (B ++ lit "$\x7b/if\x7d"))).drop i) = false)
    (hB : ∀ i < B.length,
      (lit "$\x7b/if\x7d").isPrefixOf ((B ++ lit "$\x7b/if\x7d").drop i) = false)
    (hfail : jsTruthy (evaluateCondition env
      (thisReplScan .procCond data none c) data) = false) :
    processConditions env data ('$' :: (lit "\x7b#if " ++
        (c ++ '\x7d' :: (A ++ (lit "$\x7b#else\x7d" ++ (B ++ lit "$\x7b/if\x7d")))))) =
      B := by
  unfold processConditions
  rw [scanIf_single _ c A B hc0 hcbr hchead hA hB]
  simp [hfail]

unseal splitOnChar normalizePath varMatches boundaryReplaceAll thisReplScan in
theorem C5_if_failure_amended_witness :
    processConditions hostFail (.vObj []) ('$' :: (lit "\x7b#if " ++
        (lit "flag" ++ '\x7d' :: (lit "T" ++
          (lit "$\x7b#else\x7d" ++ (lit "F" ++ lit "$\x7b/if\x7d")))))) =
      lit "F" :=
  C5_if_failure_amended hostFail (.vObj []) (lit "flag") (lit "T") (lit "F")
    (by decide) (by decide) (by decide) (by decide) (by decide) rfl

unseal splitOnChar normalizePath varMatches boundaryReplaceAll thisReplScan scanIf in
/-- C5 (counterexample): the condition `x + ` cannot be evaluated (the
host throws and the evaluator returns `null`), yet the output is exactly
the else branch `B`: no `[ERROR` marker appears and the node is not
replaced by a diagnostic placeholder. -/
theorem C5_if_failure_counterexample :
    processConditions hostFail (.vObj [])
      (lit "$\x7b#if x + \x7dA$\x7b#else\x7dB$\x7b/if\x7d") = lit "B" ∧
    containsSub (lit "B") (lit "[ERROR") = false :=
  ⟨rfl, by decide⟩

/-- C6: a flat `${#each L}body${/each}` over a resolved list emits exactly
`len(L)` rendered copies of the body, one per element in element order
(the copies are the `renderItems` list, of length `len(L)`), and the
empty list yields the empty expansion. -/
theorem C6_loop_length (env : HostEnv) (data : Val) (L body : Str)
    (items : List Val)
    (hL0 : L ≠ [])
    (hLbr : '\x7d' ∉ L)
    (hLws : ∀ c ∈ L, isWs c = false)
    (hcl : ∀ i < body.length, eachClose.isPrefixOf ((body ++ eachClose).drop i) = false)
    (hop : ∀ i < body.length, eachOpen.isPrefixOf ((body ++ eachClose).drop i) = false)
    (hev : evaluate env L data = .vArr items) :
    processLoops env data (eachOpen ++ (L ++ '\x7d' :: (body ++ eachClose))) =
      joinSep ['\n'] (renderItems env data (trimNl body) items items.length 0) ∧
    (renderItems env data (trimNl body) items items.length 0).length = items.length ∧
    (items = [] →
      processLoops env data (eachOpen ++ (L ++ '\x7d' :: (body ++ eachClose))) = []) := by
  refine ⟨processLoops_each_spec env data L body items hL0 hLbr hLws hcl hop hev,
    renderItems_length env data (trimNl body) items items.length 0, ?_⟩
  intro hnil
  rw [processLoops_each_spec env data L body items hL0 hLbr hLws hcl hop hev]
  subst hnil
  rw [renderItems]
  rfl

unseal splitOnChar normalizePath in
theorem C6_loop_length_witness :
    processLoops hostFail (.vObj [("M", .vArr [.vStr (lit "u")])])
        (eachOpen ++ (lit "M" ++ '\x7d' :: (lit "b" ++ eachClose))) =
      joinSep ['\n'] (renderItems hostFail (.vObj [("M", .vArr [.vStr (lit "u")])])
        (trimNl (lit "b")) [.vStr (lit "u")] 1 0) ∧
    (renderItems hostFail (.vObj [("M", .vArr [.vStr (lit "u")])])
      (trimNl (lit "b")) [.vStr (lit "u")] 1 0).length = 1 ∧
    ([.vStr (lit "u")] = ([] : List Val) →
      processLoops hostFail (.vObj [("M", .vArr [.vStr (lit "u")])])
        (eachOpen ++ (lit "M" ++ '\x7d' :: (lit "b" ++ eachClose))) = []) :=
  C6_loop_length hostFail (.vObj [("M", .vArr [.vStr (lit "u")])])
    (lit "M") (lit "b") [.vStr (lit "u")]
    (by decide) (by decide) (by decide) (by decide) (by decide) rfl

/-- C7 (amended): after expansion, a table row survives the cleanup
exactly when it is not of the removed shape: some `<w:t>` leaf exists and
the concatenated leaf text trims to empty.  Rows with non-whitespace user
text are kept; but a row with no text leaves at all is also kept, even
though its concatenated text is empty. -/
theorem C7_row_cleanup_amended (rows : List TRow) (r : TRow) :
    r ∈ removeEmptyControlRows rows ↔
      r ∈ rows ∧ ¬ (r.leaves ≠ [] ∧ trimStr (rowText r) = []) := by
  unfold removeEmptyControlRows
  rw [List.mem_filter]
  constructor
  · rintro ⟨hmem, hkeep⟩
    refine ⟨hmem, fun hc => ?_⟩
    have := (rowRemoved_iff r).mpr hc
    rw [this] at hkeep
    simp at hkeep
  · rintro ⟨hmem, hkeep⟩
    refine ⟨hmem, ?_⟩
    cases hrem : rowRemoved r
    · simp
    · exact absurd ((rowRemoved_iff r).mp hrem) hkeep

/-- C7 (counterexample): a row with no text leaves has empty concatenated
text, yet it is kept by the cleanup — the removal patterns demand at
least one `<w:t>` element. -/
theorem C7_row_cleanup_counterexample :
    removeEmptyControlRows [TRow.mk []] = [TRow.mk []] ∧
    trimStr (rowText (TRow.mk [])) = [] :=
  ⟨by decide, by decide⟩

/-- C8: the render pipeline — clone, metadata injection, and every
per-iteration loop context — never writes through the caller's data
reference: the object it points to is identical, field for field, after
the pipeline. -/
theorem C8_no_caller_mutation (h : Heap) (dref : Nat) (meta helpers : Val)
    (items : List Val) (hr : dref < h.length) :
    hget (renderPipelineH h dref meta helpers items) dref = hget h dref :=
  hget_renderPipelineH hr

theorem C8_no_caller_mutation_witness :
    hget (renderPipelineH [[("a", .vNum (.num 1))]] 0 .vNull .vNull
      [.vNum (.num 2)]) 0 = hget [[("a", .vNum (.num 1))]] 0 :=
  C8_no_caller_mutation [[("a", .vNum (.num 1))]] 0 .vNull .vNull
    [.vNum (.num 2)] (by decide)

/-- C9 (amended): the run-merging loop executes at most 21 passes on
every input (the counter is incremented before the `> 20` break test, so
the guard admits one pass beyond 20), and it stops after a single pass
when that pass is already a fixed point. -/
theorem C9_merge_bound_amended (xml : Str) :
    (mergeLoop xml).2 ≤ 21 ∧ (mergeStep xml = xml → mergeLoop xml = (xml, 1)) :=
  ⟨mergeAux_le 20 0 xml (by omega) (by omega), fun h => mergeLoop_fix h⟩

theorem C9_merge_bound_amended_witness :
    (mergeLoop (lit "abc")).2 ≤ 21 ∧
    (mergeStep (lit "abc") = lit "abc" → mergeLoop (lit "abc") = (lit "abc", 1)) :=
  C9_merge_bound_amended (lit "abc")

/-- C9 (counterexample): on the nested input
`(</w:t></w:r><w:r)^21 (><w:t>)^21` the loop executes 21 passes — more
than the 20 the claim allows. -/
theorem C9_merge_bound_counterexample :
    (mergeLoop (nestP2 20)).2 = 21 ∧ ¬ ((mergeLoop (nestP2 20)).2 ≤ 20) := by
  have h := mergeAux_nestP2 20 0 (by omega)
  exact ⟨h, by
    rw [show mergeLoop (nestP2 20) = mergeAux (nestP2 20) 0 from rfl, h]
    omega⟩

/-- C10: a value whose numeric coercion is `NaN` or `0` is treated as `0`
by the numeric formatters: `percent` yields `0.00%`, `number` yields
`0.00`, `round` yields the number `0`, and `currency` yields the
locale-formatted `0`. -/
theorem C10_formatters_zero (env : HostEnv) (v : Val)
    (h : jsToNumber v = .nan ∨ jsToNumber v = .num 0) :
    applyFormatters env v [lit "percent"] = .vStr (lit "0.00%") ∧
    applyFormatters env v [lit "number"] = .vStr (lit "0.00") ∧
    applyFormatters env v [lit "round"] = .vNum (.num 0) ∧
    applyFormatters env v [lit "currency"] = .vStr (env.intl "en-US" "USD" 0) := by
  have h0 : numOr0 v = 0 := by
    unfold numOr0
    rcases h with h | h <;> rw [h]
  refine ⟨?_, ?_, ?_, ?_⟩
  · rw [applyFormatters_single env v (lit "percent") _ (by decide) (by decide)
      (runFormatter_percent env v), h0]
    rw [show (0 : ℚ) * 100 = 0 from by norm_num, toFixed_zero_two]
    rfl
  · rw [applyFormatters_single env v (lit "number") _ (by decide) (by decide)
      (runFormatter_number env v), h0, toFixed_zero_two]
  · rw [applyFormatters_single env v (lit "round") _ (by decide) (by decide)
      (runFormatter_round env v), h0, round_zero_num]
  · rw [applyFormatters_single env v (lit "currency") _ (by decide) (by decide)
      (runFormatter_currency env v), h0]

theorem C10_formatters_zero_witness :
    applyFormatters hostFail (.vStr (lit "abc")) [lit "percent"] =
      .vStr (lit "0.00%") ∧
    applyFormatters hostFail (.vStr (lit "abc")) [lit "number"] =
      .vStr (lit "0.00") ∧
    applyFormatters hostFail (.vStr (lit "abc")) [lit "round"] = .vNum (.num 0) ∧
    applyFormatters hostFail (.vStr (lit "abc")) [lit "currency"] =
      .vStr (hostFail.intl "en-US" "USD" 0) :=
  C10_formatters_zero hostFail (.vStr (lit "abc")) (Or.inl (by decide))

end Docx
